import Mathlib

/-!
Verification of the glance CSV engine (csv_reader.cpp, delim.cpp,
type_inference.cpp, filter.cpp) against its specification.

The source is embedded shallowly: the raw byte buffer is a `List Char`
(inputs of interest are ASCII, so one `Char` stands for one byte), field
views are materialised as the character lists they reference, machine
`size_t` arithmetic is `Nat` (no operation here can overflow in practice),
and the `double` arithmetic of the delimiter detector is modelled exactly
over `ℚ` with an exact comparison for scores `mean / (1 + sqrt var)`.
Loops that advance by a data-dependent amount are written with an explicit
fuel argument (callers pass `length + 1`, which is always sufficient), so
every definition computes by kernel reduction.
-/

namespace Glance

/-- A raw byte string of the input, one `Char` per byte. -/
abbrev Str := List Char

/-! ### unquote (csv_reader.cpp lines 17-34) -/

/-- Inner scan of `unquote`: copy characters, collapsing each doubled
quote `""` to a single `"` (emit one, skip two). -/
def collapseQuotes : Str → Str
  | [] => []
  | [c] => [c]
  | c :: c2 :: cs =>
    if c = '"' ∧ c2 = '"' then '"' :: collapseQuotes cs
    else c :: collapseQuotes (c2 :: cs)

/-- `unquote`: if the field is at least two characters long and bookended by
double quotes, strip them and collapse doubled quotes; otherwise return the
field unchanged. -/
def unquote (field : Str) : Str :=
  if 2 ≤ field.length ∧ field.head? = some '"' ∧ field.getLast? = some '"' then
    collapseQuotes ((field.drop 1).dropLast)
  else field

/-- Doubling of embedded quotes, the escaping half of `quoteField`.
`quoteField` itself is not in the source; the spec defines it as wrapping
in quotes and doubling embedded quotes, and this pair of definitions
follows that wording. -/
def escapeQuotes : Str → Str
  | [] => []
  | c :: cs => if c = '"' then '"' :: '"' :: escapeQuotes cs else c :: escapeQuotes cs

/-- `quoteField` as described by the spec: wrap in double quotes and double
every embedded double quote. -/
def quoteField (x : Str) : Str := '"' :: (escapeQuotes x ++ ['"'])

/-! ### Line boundaries (csv_reader.cpp find_line_end, lines 69-89)

Offsets are taken relative to the start of the remaining input, which is
passed as a suffix list. -/

/-- Index of the first newline byte (the `memchr` of `find_line_end`), or
the length of the input when there is none. -/
def firstNl : Str → ℕ
  | [] => 0
  | c :: cs => if c = '\n' then 0 else firstNl cs + 1

/-- Quote-aware slow path of `find_line_end`: index of the first newline
seen while the in-quotes flag is false, or the length of the input. -/
def slowLineEnd : Str → Bool → ℕ
  | [], _ => 0
  | c :: cs, inq =>
    if c = '"' then slowLineEnd cs (!inq) + 1
    else if ¬inq ∧ c = '\n' then 0
    else slowLineEnd cs inq + 1

/-- `find_line_end`: the newline found by direct byte search is the row
boundary unless a quote occurs before it, in which case a full quote-aware
scan decides. -/
def findLineEnd (l : Str) : ℕ :=
  let nlPos := firstNl l
  if (l.take nlPos).contains '"' then slowLineEnd l false else nlPos

/-- One iteration of the body-parse loop's line handling: the line content
with a trailing carriage return trimmed, and the remaining input after
advancing past the boundary. -/
def lineStep (l : Str) : Str × Str :=
  let e := findLineEnd l
  let line := l.take e
  let line2 := if line.getLast? = some '\r' then line.dropLast else line
  (line2, l.drop (e + 1))

/-! ### Field parsing (csv_reader.cpp parse_line_fields lines 93-130 and
append_row_fields lines 204-249) -/

/-- Inner scan of a quoted field, applied to the bytes after the opening
quote: consume until a quote not followed by another quote; a doubled
quote is consumed whole. Returns the consumed span and the rest (which is
empty or begins with the terminating quote). -/
def qspan : Str → Str × Str
  | [] => ([], [])
  | [c] => if c = '"' then ([], [c]) else ([c], [])
  | c :: c2 :: cs =>
    if c = '"' then
      if c2 = '"' then
        let p := qspan cs
        ('"' :: '"' :: p.1, p.2)
      else ([], c :: c2 :: cs)
    else
      let p := qspan (c2 :: cs)
      (c :: p.1, p.2)

/-- A field beginning with a quote: raw span includes the surrounding
quotes; the closing quote is consumed when present. -/
def takeQuotedField (l : Str) : Str × Str :=
  match l with
  | [] => ([], [])
  | c :: cs =>
    let p := qspan cs
    if p.2.head? = some '"' then (c :: p.1 ++ ['"'], p.2.tail) else (c :: p.1, p.2)

/-- After a quoted field, one delimiter byte (when it is next) is consumed
as the separator. -/
def dropDelim (delim : Char) (l : Str) : Str :=
  if l.head? = some delim then l.tail else l

/-- A field not beginning with a quote: consume up to the next delimiter,
then consume the delimiter byte when present. -/
def takeUnquotedField (delim : Char) (l : Str) : Str × Str :=
  (l.takeWhile (fun c => c ≠ delim), (l.dropWhile (fun c => c ≠ delim)).tail)

/-- The field loop shared by `parse_line_fields` (no budget). `fuel` is an
upper bound on iterations; callers pass `length + 1`, which always
suffices since each iteration consumes at least one byte. -/
def fieldsLoop (delim : Char) : ℕ → Str → List Str
  | 0, _ => []
  | _ + 1, [] => []
  | fuel + 1, c :: cs =>
    if c = '"' then
      let p := takeQuotedField (c :: cs)
      p.1 :: fieldsLoop delim fuel (dropDelim delim p.2)
    else
      let p := takeUnquotedField delim (c :: cs)
      p.1 :: fieldsLoop delim fuel p.2

/-- `parse_line_fields`: the field loop, plus one extra empty trailing
field when the line's last byte is the delimiter. -/
def parseLineFields (delim : Char) (l : Str) : List Str :=
  if l = [] then []
  else fieldsLoop delim (l.length + 1) l ++ (if l.getLast? = some delim then [[]] else [])

/-- The budgeted field loop of `append_row_fields`: stops once `budget`
fields have been emitted. -/
def fieldsLoopB (delim : Char) : ℕ → ℕ → Str → List Str
  | 0, _, _ => []
  | _ + 1, 0, _ => []
  | _ + 1, _ + 1, [] => []
  | fuel + 1, b + 1, c :: cs =>
    if c = '"' then
      let p := takeQuotedField (c :: cs)
      p.1 :: fieldsLoopB delim fuel b (dropDelim delim p.2)
    else
      let p := takeUnquotedField delim (c :: cs)
      p.1 :: fieldsLoopB delim fuel b p.2

/-- `append_row_fields`: at most `ncols` fields from the line, one extra
empty field when the budget is not exhausted and the line ends in the
delimiter, and padding with empty fields up to `ncols`. Returns the fields
appended for this row. -/
def appendRowFields (delim : Char) (ncols : ℕ) (l : Str) : List Str :=
  let fs := fieldsLoopB delim (l.length + 1) ncols l
  let fs2 := if fs.length < ncols ∧ l.getLast? = some delim then fs ++ [[]] else fs
  fs2 ++ List.replicate (ncols - fs2.length) []

/-! ### Newline counting (csv_reader.cpp count_newlines lines 38-65 and
count_rows_from lines 251-281) -/

/-- The scalar byte-by-byte newline count (the tail loop of
`count_newlines`, and the whole function when NEON is absent); the spec
names it as the correctness reference. -/
def scalarNewlineCount (l : Str) : ℕ := l.count '\n'

/-- One NEON `vaddq_u8` step per 16-byte chunk: each lane accumulator is
an unsigned byte, so addition is modulo 256 (a lane never actually wraps:
it gains at most 1 per iteration over at most 255 iterations). -/
def laneAdd (acc : List ℕ) (chunk : Str) : List ℕ :=
  List.zipWith (fun a c => (a + (if c = '\n' then 1 else 0)) % 256) acc chunk

/-- The 16 lane accumulators after processing `batch` consecutive 16-byte
chunks of `l`. -/
def neonAcc (l : Str) (batch : ℕ) : List ℕ :=
  (List.range batch).foldl (fun acc j => laneAdd acc ((l.drop (16 * j)).take 16))
    (List.replicate 16 0)

/-- `vaddvq_u8` over the accumulator: the horizontal add across the 16
byte lanes returns an unsigned byte, hence the reduction modulo 256. -/
def neonBatchSum (l : Str) (batch : ℕ) : ℕ := (neonAcc l batch).sum % 256

/-- The outer loop of the NEON `count_newlines`: while at least 16 bytes
remain, fold a batch of at most 255 chunks into the byte-lane accumulator,
add its horizontal sum, and finish with the scalar tail loop. -/
def countNewlinesVec : ℕ → Str → ℕ
  | 0, l => l.count '\n'
  | fuel + 1, l =>
    if 16 ≤ l.length then
      let batch := min (l.length / 16) 255
      neonBatchSum l batch + countNewlinesVec fuel (l.drop (16 * batch))
    else l.count '\n'

/-- `count_newlines` as built with NEON enabled. -/
def count_newlines (l : Str) : ℕ := countNewlinesVec l.length l

/-- Quote-aware newline count (slow path of `count_rows_from`). -/
def countQANewlines : Str → Bool → ℕ
  | [], _ => 0
  | c :: cs, inq =>
    if c = '"' then countQANewlines cs (!inq)
    else if ¬inq ∧ c = '\n' then countQANewlines cs inq + 1
    else countQANewlines cs inq

/-- `count_rows_from` on the remaining input: newline count (vectorized
when the remainder is quote-free, quote-aware otherwise), plus one when
the last byte is not a newline. -/
def countRowsFrom (l : Str) : ℕ :=
  if l = [] then 0
  else if l.contains '"' then
    countQANewlines l false + (if l.getLast? ≠ some '\n' then 1 else 0)
  else
    count_newlines l + (if l.getLast? ≠ some '\n' then 1 else 0)

/-- `count_rows_from` with vectorization disabled: the scalar count
replaces `count_newlines`, everything else identical. -/
def countRowsFromNoVec (l : Str) : ℕ :=
  if l = [] then 0
  else if l.contains '"' then
    countQANewlines l false + (if l.getLast? ≠ some '\n' then 1 else 0)
  else
    scalarNewlineCount l + (if l.getLast? ≠ some '\n' then 1 else 0)

/-! ### Table construction (csv_reader.cpp parse_header/parse/parse_head,
lines 188-355) -/

/-- The engine state after a parse: header field views, the flat row-major
field store, and the counters. -/
structure ParseResult where
  headers : List Str
  fields : List Str
  ncols : ℕ
  parsedRows : ℕ
  totalRows : ℕ
deriving DecidableEq, Repr

/-- `parse_header`: fields of the CRLF-trimmed first line, and the offset
advanced past the boundary (as the remaining suffix). -/
def parseHeader (delim : Char) (data : Str) : List Str × Str :=
  if data = [] then ([], [])
  else
    let e := findLineEnd data
    let line := data.take e
    let line2 := if line.getLast? = some '\r' then line.dropLast else line
    (parseLineFields delim line2, data.drop (e + 1))

/-- The body loop of `parse`: skip blank lines, append each non-blank
line's fields, count parsed rows. Returns the flat fields and the row
count. -/
def parseBodyLoop (delim : Char) (ncols : ℕ) : ℕ → Str → List Str × ℕ
  | 0, _ => ([], 0)
  | _ + 1, [] => ([], 0)
  | fuel + 1, c :: cs =>
    let p := lineStep (c :: cs)
    if p.1 = [] then parseBodyLoop delim ncols fuel p.2
    else
      let q := parseBodyLoop delim ncols fuel p.2
      (appendRowFields delim ncols p.1 ++ q.1, q.2 + 1)

/-- The body loop of `parse_head`: identical, but stops once `maxRows`
rows have been parsed; also returns the unparsed remainder. -/
def parseHeadLoop (delim : Char) (ncols : ℕ) : ℕ → ℕ → Str → List Str × ℕ × Str
  | 0, _, l => ([], 0, l)
  | _ + 1, _, [] => ([], 0, [])
  | _ + 1, 0, c :: cs => ([], 0, c :: cs)
  | fuel + 1, m + 1, c :: cs =>
    let p := lineStep (c :: cs)
    if p.1 = [] then parseHeadLoop delim ncols fuel (m + 1) p.2
    else
      let q := parseHeadLoop delim ncols fuel m p.2
      (appendRowFields delim ncols p.1 ++ q.1, q.2.1 + 1, q.2.2)

/-- `CsvReader::parse`: header, then the whole body; `total_rows` equals
`parsed_rows`. -/
def CsvReader.parse (delim : Char) (data : Str) : ParseResult :=
  let h := parseHeader delim data
  let ncols := h.1.length
  if ncols = 0 then ⟨h.1, [], 0, 0, 0⟩
  else
    let b := parseBodyLoop delim ncols (h.2.length + 1) h.2
    ⟨h.1, b.1, ncols, b.2, b.2⟩

/-- `CsvReader::parse_head`: header, body bounded by `maxRows`, and
`total_rows = parsed_rows + count_rows_from(remainder)`. -/
def CsvReader.parseHead (delim : Char) (maxRows : ℕ) (data : Str) : ParseResult :=
  let h := parseHeader delim data
  let ncols := h.1.length
  if ncols = 0 then ⟨h.1, [], 0, 0, 0⟩
  else
    let b := parseHeadLoop delim ncols (h.2.length + 1) maxRows h.2
    ⟨h.1, b.1, ncols, b.2.1, b.2.1 + countRowsFrom b.2.2⟩

/-- `CsvReader::row(i)`: the `ncols` field views starting at `i * ncols`
in the flat store. -/
def CsvReader.rowAt (r : ParseResult) (i : ℕ) : List Str :=
  (r.fields.drop (i * r.ncols)).take r.ncols

/-! ### C1: parse_head row and total counts -/

/-- Blank-line freedom of an input, following the body loop's own line
decomposition (a line is blank when it is empty after CR trimming). -/
def allLinesNonBlank : ℕ → Str → Bool
  | 0, _ => true
  | _ + 1, [] => true
  | fuel + 1, c :: cs =>
    let p := lineStep (c :: cs)
    if p.1 = [] then false else allLinesNonBlank fuel p.2

/-- Whether no line of `l` is blank, in the sense of the body loops. -/
def noBlankLines (l : Str) : Bool := allLinesNonBlank l.length l

/-! ### Type inference (type_inference.cpp) -/

/-- The closed set of column types. -/
inductive ColumnType
  | Int64
  | Float64
  | Date
  | Currency
  | Bool
  | Enum
  | Text
deriving DecidableEq, Repr

/-- Column name (unquoted header text) and inferred type (`ty` stands for
the source's `type` field). -/
structure ColumnSchema where
  name : Str
  ty : ColumnType
deriving DecidableEq, Repr

/-- ASCII digit test, the `s[i] >= '0' && s[i] <= '9'` comparisons. -/
def isDigitCh (c : Char) : Bool := decide ('0' ≤ c ∧ c ≤ '9')

/-- `is_int64`: optional sign, then at least one character, all digits. -/
def is_int64 (s : Str) : Bool :=
  match s with
  | [] => false
  | c :: cs =>
    let t := if c = '-' ∨ c = '+' then cs else c :: cs
    if t = [] then false else t.all isDigitCh

/-- Exponent tail of `is_float64`: after `e`/`E`, an optional sign then a
non-empty run of digits reaching the end of the value. -/
def float64ExpTail (cs : Str) : Bool :=
  let cs2 := match cs with
    | c :: rest => if c = '+' ∨ c = '-' then rest else c :: rest
    | [] => []
  (!cs2.isEmpty) && cs2.all isDigitCh

/-- Main scan of `is_float64` over the characters after the optional
sign, tracking whether a dot and a digit have been seen. On exhausting
the input it requires both a digit and a dot. -/
def float64Loop : Str → Bool → Bool → Bool
  | [], hasDot, hasDigit => hasDigit && hasDot
  | c :: cs, hasDot, hasDigit =>
    if c = '.' then
      if hasDot then false else float64Loop cs true hasDigit
    else if isDigitCh c then float64Loop cs hasDot true
    else if c = 'e' ∨ c = 'E' then
      if hasDigit then float64ExpTail cs else false
    else false

/-- `is_float64`: optional sign, then the main scan. Note the scan accepts
a value with no exponent only when it contains a decimal point. -/
def is_float64 (s : Str) : Bool :=
  match s with
  | [] => false
  | c :: cs =>
    let t := if c = '-' ∨ c = '+' then cs else c :: cs
    if t = [] then false else float64Loop t false false

/-- Digit test at position `i` (false out of range). -/
def digAt (s : Str) (i : ℕ) : Bool :=
  match s[i]? with
  | some c => isDigitCh c
  | none => false

/-- `is_date`: exactly the two 10-character patterns of the source
(`YYYY-MM-DD`/`YYYY/MM/DD` and `MM-DD-YYYY`/`MM/DD/YYYY`); sizes 8 and 9
pass the length guard but match neither pattern. -/
def is_date (s : Str) : Bool :=
  if s.length < 8 ∨ 10 < s.length then false
  else if s.length = 10 ∧ (s[4]? = some '-' ∨ s[4]? = some '/') ∧
      (s[7]? = some '-' ∨ s[7]? = some '/') then
    [0, 1, 2, 3, 5, 6, 8, 9].all (digAt s)
  else if s.length = 10 ∧ (s[2]? = some '/' ∨ s[2]? = some '-') ∧
      (s[5]? = some '/' ∨ s[5]? = some '-') then
    [0, 1, 3, 4, 6, 7, 8, 9].all (digAt s)
  else false

/-- Digit/comma/dot scan of `is_currency`, tracking whether a digit was
seen and allowing at most one dot; returns the digit flag at the end. -/
def currencyLoop : Str → Bool → Bool → Bool
  | [], hasDigit, _ => hasDigit
  | c :: cs, hasDigit, hasDot =>
    if isDigitCh c then currencyLoop cs true hasDot
    else if c = ',' then currencyLoop cs hasDigit hasDot
    else if c = '.' then
      if hasDot then false else currencyLoop cs hasDigit true
    else false

/-- `is_currency`: skips a `$` or a `0xC2`-lead byte (with an optional
`0xA3`/`0xA5` continuation byte, the UTF-8 tails of the pound and yen
signs), an optional sign, then digits with commas and at most one dot;
qualifies only when a digit was seen and the first byte is a literal `$`. -/
def is_currency (s : Str) : Bool :=
  if s.length < 2 then false
  else
    let t1 := match s with
      | c :: cs =>
        if c = '$' ∨ c = Char.ofNat 194 then
          match cs with
          | d :: ds => if d = Char.ofNat 163 ∨ d = Char.ofNat 165 then ds else d :: ds
          | [] => []
        else c :: cs
      | [] => []
    if t1 = [] then false
    else
      let t2 := match t1 with
        | c :: cs => if c = '-' ∨ c = '+' then cs else c :: cs
        | [] => []
      currencyLoop t2 false false && decide (s.head? = some '$')

/-- ASCII lower-casing of one character (`c + 32` for `A`..`Z`). -/
def toLowerCh (c : Char) : Char :=
  if 'A' ≤ c ∧ c ≤ 'Z' then Char.ofNat (c.toNat + 32) else c

/-- `is_bool`: length 1 to 5 and case-insensitive membership in
{true, false, yes, no, 1, 0}. -/
def is_bool (s : Str) : Bool :=
  if s.length < 1 ∨ 5 < s.length then false
  else
    let lower := s.map toLowerCh
    decide (lower = ['t', 'r', 'u', 'e'] ∨ lower = ['f', 'a', 'l', 's', 'e'] ∨
      lower = ['y', 'e', 's'] ∨ lower = ['n', 'o'] ∨ lower = ['1'] ∨ lower = ['0'])

/-- The per-column sample of `infer_schema`: for each of the first `nrows`
rows, the raw field of column `col` when it exists and unquotes to a
non-empty value. -/
def sampledValues (r : ParseResult) (nrows col : ℕ) : List Str :=
  (List.range nrows).filterMap (fun i =>
    match (CsvReader.rowAt r i)[col]? with
    | none => none
    | some v => if unquote v = [] then none else some v)

/-- `infer_schema`: per column, sample up to `sample_size` rows' non-empty
unquoted values and classify by the fixed predicate priority; low
cardinality falls to Enum, everything else to Text. The distinct-value
count models the `std::set` of unquoted values. -/
def infer_schema (r : ParseResult) (sample_size : ℕ) : List ColumnSchema :=
  let nrows := min r.parsedRows sample_size
  (List.range r.ncols).map (fun col =>
    let colName := unquote ((r.headers[col]?).getD [])
    if nrows = 0 then ⟨colName, ColumnType.Text⟩
    else
      let values := sampledValues r nrows col
      if values = [] then ⟨colName, ColumnType.Text⟩
      else
        let uniqueCount := ((values.map unquote).dedup).length
        let detected :=
          if values.all (fun v => is_bool (unquote v)) then ColumnType.Bool
          else if values.all (fun v => is_currency (unquote v)) then ColumnType.Currency
          else if values.all (fun v => is_date (unquote v)) then ColumnType.Date
          else if values.all (fun v => is_int64 (unquote v)) then ColumnType.Int64
          else if values.all (fun v => is_float64 (unquote v)) then ColumnType.Float64
          else if uniqueCount < max 2 (values.length / 10) then ColumnType.Enum
          else ColumnType.Text
        ⟨colName, detected⟩)

/-! ### Query layer (filter.cpp) -/

/-- The filter operators. -/
inductive FilterOp
  | Eq
  | Neq
  | Gt
  | Lt
  | Gte
  | Lte
  | Contains
  | StartsWith
  | EndsWith
deriving DecidableEq, Repr

/-- A parsed filter: column name, operator, literal value. -/
structure Filter where
  column : Str
  op : FilterOp
  value : Str
deriving DecidableEq, Repr

/-- Errors raised by the query layer. -/
inductive QueryError
  | UnknownColumn (column : Str) (available : List Str)
  | NoColumnsSelected
deriving DecidableEq, Repr

/-- `to_lower` of filter.cpp. -/
def toLowerStr (s : Str) : Str := s.map toLowerCh

/-- Whitespace as `std::isspace` classifies it in the C locale. -/
def isSpaceCh (c : Char) : Bool :=
  decide (c = ' ' ∨ c = '\t' ∨ c = '\n' ∨ c = '\r' ∨
    c = Char.ofNat 11 ∨ c = Char.ofNat 12)

/-- Value of a digit run. -/
def digitsVal (l : Str) : ℕ :=
  l.foldl (fun a c => a * 10 + (c.toNat - '0'.toNat)) 0

/-- Model of `std::stod`'s decimal parsing over exact rationals: skip
leading whitespace, optional sign, digits with at most one decimal point,
and an optional exponent part that is consumed only when at least one
digit follows; the longest valid prefix is converted and trailing bytes
are ignored; failure (`none`) exactly when no mantissa digit is found.
The hexadecimal, infinity and NaN forms of `strtod`, and binary-double
rounding, are not modelled. -/
def stodQ (s : Str) : Option ℚ :=
  let s1 := s.dropWhile isSpaceCh
  let p : ℚ × Str := match s1 with
    | '-' :: r => (-1, r)
    | '+' :: r => (1, r)
    | _ => (1, s1)
  let d1 := p.2.takeWhile isDigitCh
  let r1 := p.2.drop d1.length
  let q : Str × Str := match r1 with
    | '.' :: r => (r.takeWhile isDigitCh, r.drop (r.takeWhile isDigitCh).length)
    | _ => ([], r1)
  if d1 = [] ∧ q.1 = [] then none
  else
    let mant : ℚ := (digitsVal (d1 ++ q.1) : ℚ) / (10 : ℚ) ^ q.1.length
    let e : ℤ := match q.2 with
      | c :: rest =>
        if c = 'e' ∨ c = 'E' then
          let w : ℤ × Str := match rest with
            | '-' :: r => (-1, r)
            | '+' :: r => (1, r)
            | _ => (1, rest)
          let ed := w.2.takeWhile isDigitCh
          if ed = [] then 0 else w.1 * (digitsVal ed : ℤ)
        else 0
      | [] => 0
    some (p.1 * mant * (10 : ℚ) ^ e)

/-- `parse_numeric`: strip every `$` and `,`, then convert with `stod`. -/
def parse_numeric (s : Str) : Option ℚ :=
  stodQ (s.filter (fun c => decide (c ≠ '$' ∧ c ≠ ',')))

/-- `is_numeric_type`. -/
def is_numeric_type (t : ColumnType) : Bool :=
  decide (t = ColumnType.Int64 ∨ t = ColumnType.Float64 ∨ t = ColumnType.Currency)

/-- Byte-wise lexicographic strict order of `std::string` comparison. -/
def strLtB : Str → Str → Bool
  | [], [] => false
  | [], _ :: _ => true
  | _ :: _, [] => false
  | a :: as, b :: bs =>
    if a < b then true else if b < a then false else strLtB as bs

/-- `compare_strings`: case-fold both sides when requested, then compare
byte-wise; `Contains`/`StartsWith`/`EndsWith` are substring, prefix and
suffix tests. -/
def compare_strings (cell : Str) (op : FilterOp) (value : Str) (ci : Bool) : Bool :=
  let a := if ci then toLowerStr cell else cell
  let b := if ci then toLowerStr value else value
  match op with
  | FilterOp.Eq => decide (a = b)
  | FilterOp.Neq => decide (a ≠ b)
  | FilterOp.Gt => strLtB b a
  | FilterOp.Lt => strLtB a b
  | FilterOp.Gte => !strLtB a b
  | FilterOp.Lte => !strLtB b a
  | FilterOp.Contains => (List.range (a.length + 1)).any (fun i => b.isPrefixOf (a.drop i))
  | FilterOp.StartsWith => decide (b.length ≤ a.length) && b.isPrefixOf a
  | FilterOp.EndsWith => decide (b.length ≤ a.length) && b.isSuffixOf a

/-- `compare_numeric`: numeric comparison; the substring operators are
never true numerically. -/
def compare_numeric (cellVal : ℚ) (op : FilterOp) (filterVal : ℚ) : Bool :=
  match op with
  | FilterOp.Eq => decide (cellVal = filterVal)
  | FilterOp.Neq => decide (cellVal ≠ filterVal)
  | FilterOp.Gt => decide (filterVal < cellVal)
  | FilterOp.Lt => decide (cellVal < filterVal)
  | FilterOp.Gte => decide (filterVal ≤ cellVal)
  | FilterOp.Lte => decide (cellVal ≤ filterVal)
  | FilterOp.Contains => false
  | FilterOp.StartsWith => false
  | FilterOp.EndsWith => false

/-- `row_matches`: out-of-range column is no match; on a numeric-typed
column with a non-substring operator, try parsing both sides and compare
numerically, silently falling back to string comparison when either parse
fails (the `try`/`catch` of the source). -/
def row_matches (row : List Str) (f : Filter) (colIdx : ℕ)
    (colType : ColumnType) (ci : Bool) : Bool :=
  match row[colIdx]? with
  | none => false
  | some raw =>
    let cell := unquote raw
    if is_numeric_type colType && !decide (f.op = FilterOp.Contains) &&
        !decide (f.op = FilterOp.StartsWith) && !decide (f.op = FilterOp.EndsWith) then
      match parse_numeric cell, parse_numeric f.value with
      | some cv, some fv => compare_numeric cv f.op fv
      | _, _ => compare_strings cell f.op f.value ci
    else compare_strings cell f.op f.value ci

/-- Resolution of one filter's column name against the unquoted headers
(optionally case-folded); carries the column's schema type, or Text when
the schema is shorter than the header list. -/
def resolveFilter (headers : List Str) (schema : List ColumnSchema) (ci : Bool)
    (f : Filter) : Except QueryError (ℕ × ColumnType) :=
  let fcol := if ci then toLowerStr f.column else f.column
  match (List.range headers.length).find? (fun i =>
      (if ci then toLowerStr (unquote (headers.getD i [])) else unquote (headers.getD i [])) = fcol) with
  | some i => Except.ok (i, ((schema[i]?).map ColumnSchema.ty).getD ColumnType.Text)
  | none => Except.error (QueryError.UnknownColumn f.column (headers.map unquote))

/-- The resolution loop of `apply_filters`: resolve each filter in order,
propagating the first failure. -/
def resolveFilters (headers : List Str) (schema : List ColumnSchema) (ci : Bool) :
    List Filter → Except QueryError (List (ℕ × ColumnType))
  | [] => Except.ok []
  | f :: fs =>
    match resolveFilter headers schema ci f with
    | Except.error e => Except.error e
    | Except.ok rc =>
      match resolveFilters headers schema ci fs with
      | Except.error e => Except.error e
      | Except.ok rest => Except.ok (rc :: rest)

/-- `apply_filters`: resolve all filters, then keep each row index whose
row satisfies all filters (AND) or any filter (OR). -/
def apply_filters (filters : List Filter) (r : ParseResult)
    (schema : List ColumnSchema) (ci orLogic : Bool) : Except QueryError (List ℕ) :=
  match resolveFilters r.headers schema ci filters with
  | Except.error e => Except.error e
  | Except.ok resolved =>
    let rf := filters.zip resolved
    Except.ok ((List.range r.parsedRows).filter (fun rowIdx =>
      let row := CsvReader.rowAt r rowIdx
      if orLogic then rf.any (fun pr => row_matches row pr.1 pr.2.1 pr.2.2 ci)
      else rf.all (fun pr => row_matches row pr.1 pr.2.1 pr.2.2 ci)))

/-- The space trim of `resolve_columns` (`find_first_not_of(' ')` /
`find_last_not_of(' ')`). -/
def trimSpaces (s : Str) : Str :=
  ((s.dropWhile (fun c => decide (c = ' '))).reverse.dropWhile
    (fun c => decide (c = ' '))).reverse

/-- The `std::getline(ss, token, ',')` loop: split on commas; a trailing
comma yields no final empty token, and an empty input yields no tokens. -/
def getlineSplit : ℕ → Str → List Str
  | 0, _ => []
  | _ + 1, [] => []
  | fuel + 1, c :: cs =>
    let tok := (c :: cs).takeWhile (fun x => decide (x ≠ ','))
    if tok.length = (c :: cs).length then [tok]
    else tok :: getlineSplit fuel ((c :: cs).drop (tok.length + 1))

/-- Comma splitting with sufficient fuel. -/
def getline_split (s : Str) : List Str := getlineSplit (s.length + 1) s

/-- The token loop of `resolve_columns`: trim each token, skip the ones
that are empty after trimming, match the rest against unquoted headers
(first match wins), failing on the first unmatched token. -/
def resolveTokens (headers : List Str) : List Str → Except QueryError (List ℕ)
  | [] => Except.ok []
  | tok :: rest =>
    let t := trimSpaces tok
    if t = [] then resolveTokens headers rest
    else
      match (List.range headers.length).find? (fun i => unquote (headers.getD i []) = t) with
      | some i => (resolveTokens headers rest).map (fun l => i :: l)
      | none => Except.error (QueryError.UnknownColumn t (headers.map unquote))

/-- `resolve_columns`: split the select expression on commas, resolve the
tokens, and fail with `NoColumnsSelected` when nothing was selected. -/
def resolve_columns (selectStr : Str) (r : ParseResult) : Except QueryError (List ℕ) :=
  match resolveTokens r.headers (getline_split selectStr) with
  | Except.error e => Except.error e
  | Except.ok [] => Except.error QueryError.NoColumnsSelected
  | Except.ok l => Except.ok l

/-! ### Delimiter detection (delim.cpp)

The `double` statistics are modelled exactly: means and variances as
rationals, and the score comparison `mean1/(1+sqrt var1) > mean2/(1+sqrt var2)`
as an exact decidable comparison over ℚ (derived below and proved to
agree with the real-number inequality). -/

/-- `count_fields` helper: unquoted occurrences of the delimiter. -/
def countDelimsUnquoted (delim : Char) : Str → Bool → ℕ
  | [], _ => 0
  | c :: cs, inq =>
    if c = '"' then countDelimsUnquoted delim cs (!inq)
    else if ¬inq ∧ c = delim then countDelimsUnquoted delim cs inq + 1
    else countDelimsUnquoted delim cs inq

/-- `count_fields`: one more than the number of unquoted delimiters. -/
def count_fields (l : Str) (delim : Char) : ℕ := 1 + countDelimsUnquoted delim l false

/-- The sampling loop of `detect_delimiter`: split on quote-aware line
boundaries, trim a trailing CR, keep non-empty lines, stop at the sample
budget or end of data. -/
def sampleLines : ℕ → ℕ → Str → List Str
  | 0, _, _ => []
  | _ + 1, _, [] => []
  | _ + 1, 0, _ :: _ => []
  | fuel + 1, budget + 1, c :: cs =>
    let e := slowLineEnd (c :: cs) false
    let line := (c :: cs).take e
    let line2 := if line.getLast? = some '\r' then line.dropLast else line
    let rest := (c :: cs).drop (e + 1)
    if line2 = [] then sampleLines fuel (budget + 1) rest
    else line2 :: sampleLines fuel budget rest

/-- The lines `detect_delimiter` samples from `data` under budget `sb`. -/
def sampledLines (data : Str) (sb : ℕ) : List Str := sampleLines (data.length + 1) sb data

/-- Mean of the per-line field counts of candidate `c` (exact rational). -/
def meanQ (lines : List Str) (c : Char) : ℚ :=
  ((lines.map (fun l => (count_fields l c : ℚ))).sum) / (lines.length : ℚ)

/-- Population variance of the per-line field counts of candidate `c`
(exact rational; its square root is the `stddev` of the source). -/
def varQ (lines : List Str) (c : Char) : ℚ :=
  ((lines.map (fun l => (count_fields l c : ℚ))).map
    (fun v => (v - meanQ lines c) ^ 2)).sum / (lines.length : ℚ)

/-- A candidate qualifies when its mean field count is not below 2. -/
def qualifies (lines : List Str) (c : Char) : Prop := ¬(meanQ lines c < 2)

instance (lines : List Str) (c : Char) : Decidable (qualifies lines c) := by
  unfold qualifies
  infer_instance

/-- Decides `0 < t + B * sqrt x` for rationals with `0 ≤ B`, `0 ≤ x`. -/
def posAuxB (t B x : ℚ) : Bool :=
  if 0 ≤ t then decide (0 < t) || decide (0 < B ^ 2 * x)
  else decide (t ^ 2 < B ^ 2 * x)

/-- Decides `D * sqrt y < t + B * sqrt x` for rationals with
`0 ≤ B`, `0 ≤ D`, `0 ≤ x`, `0 ≤ y` (derived by squaring twice). -/
def gtAux (t B x D y : ℚ) : Bool :=
  if posAuxB t B x then
    let K := t ^ 2 + B ^ 2 * x - D ^ 2 * y
    let L := 2 * t * B
    if 0 ≤ L then posAuxB K L x
    else decide (0 < K) && decide (L ^ 2 * x < K ^ 2)
  else false

/-- Exact comparison `m1/(1+sqrt v1) > m2/(1+sqrt v2)` of the scores of
two candidates given their (mean, variance) statistics. This is the
`score > best_score` test of the source, taken over exact reals. -/
def sGTb (m1 v1 m2 v2 : ℚ) : Bool := gtAux (m1 - m2) m1 v2 m2 v1

/-- The real-valued score `mean / (1 + stddev)` of a candidate's
statistics; used only in statements. -/
noncomputable def scoreR (m v : ℚ) : ℝ := (m : ℝ) / (1 + Real.sqrt (v : ℝ))

/-- The real score of candidate `c` over the sampled lines. -/
noncomputable def scoreOf (lines : List Str) (c : Char) : ℝ :=
  scoreR (meanQ lines c) (varQ lines c)

/-- One candidate step of `detect_delimiter`'s loop: skip a candidate
whose mean is below 2; otherwise it becomes the best when no candidate
has qualified yet (every score exceeds the initial `-1` sentinel) or when
its score strictly exceeds the current best's. -/
def detectStep (lines : List Str) (best : Option (Char × ℚ × ℚ)) (c : Char) :
    Option (Char × ℚ × ℚ) :=
  if meanQ lines c < 2 then best
  else
    match best with
    | none => some (c, meanQ lines c, varQ lines c)
    | some (b, bm, bv) =>
      if sGTb (meanQ lines c) (varQ lines c) bm bv then
        some (c, meanQ lines c, varQ lines c)
      else some (b, bm, bv)

/-- The fixed candidate order of the source. -/
def candList : List Char := [',', '\t', '|', ';']

/-- `detect_delimiter`: empty data or no sampled lines yield a comma;
otherwise the best-scoring qualifying candidate (comma when none
qualifies). -/
def detect_delimiter (data : Str) (sb : ℕ) : Char :=
  if data = [] then ','
  else
    let lines := sampledLines data sb
    if lines = [] then ','
    else
      match candList.foldl (detectStep lines) none with
      | none => ','
      | some (c, _, _) => c

/-- Invariant of `detect_delimiter`'s candidate loop: either no processed
candidate qualifies, or the best holds the statistics of the earliest
processed qualifier of maximal real score. -/
def DetectInv (lines : List Str) (processed : List Char) :
    Option (Char × ℚ × ℚ) → Prop
  | none => ∀ c ∈ processed, ¬qualifies lines c
  | some (b, bm, bv) =>
      bm = meanQ lines b ∧ bv = varQ lines b ∧ qualifies lines b ∧
      (∃ l1 l2, processed = l1 ++ b :: l2 ∧
        (∀ c ∈ l1, qualifies lines c → scoreOf lines c < scoreOf lines b)) ∧
      (∀ c ∈ processed, qualifies lines c → scoreOf lines c ≤ scoreOf lines b)

theorem collapseQuotes_cons2 (c c2 : Char) (cs : Str) :
    collapseQuotes (c :: c2 :: cs) =
      if c = '"' ∧ c2 = '"' then '"' :: collapseQuotes cs
      else c :: collapseQuotes (c2 :: cs) := rfl

theorem escapeQuotes_eq_nil {cs : Str} (h : escapeQuotes cs = []) : cs = [] := by
  cases cs with
  | nil => rfl
  | cons d ds => simp only [escapeQuotes] at h; split at h <;> simp_all

theorem collapseQuotes_escapeQuotes (x : Str) : collapseQuotes (escapeQuotes x) = x := by
  induction x with
  | nil => rfl
  | cons c cs ih =>
    by_cases hc : c = '"'
    · subst hc
      rw [escapeQuotes, if_pos rfl, collapseQuotes_cons2, if_pos ⟨rfl, rfl⟩, ih]
    · rw [escapeQuotes, if_neg hc]
      cases hcs : escapeQuotes cs with
      | nil =>
        have h0 := escapeQuotes_eq_nil hcs
        subst h0
        rfl
      | cons e es =>
        rw [collapseQuotes_cons2]
        have hne : ¬(c = '"' ∧ e = '"') := fun h => hc h.1
        rw [if_neg hne, ← hcs, ih]

theorem unquote_notBookended (s : Str)
    (h : ¬(2 ≤ s.length ∧ s.head? = some '"' ∧ s.getLast? = some '"')) :
    unquote s = s := by
  simp only [unquote, if_neg h]

/-- C4: `unquote (quoteField x) = x` for every string `x` (quotes, commas,
newlines included); a value not bookended by quotes passes through
`unquote` unchanged, including a single lone quote character. -/
theorem c4_unquote_roundtrip :
    (∀ x : Str, unquote (quoteField x) = x) ∧
    (∀ s : Str, ¬(2 ≤ s.length ∧ s.head? = some '"' ∧ s.getLast? = some '"') →
      unquote s = s) ∧
    unquote ['"'] = ['"'] := by
  refine ⟨?_, unquote_notBookended, by decide⟩
  intro x
  have hsplit : quoteField x = ('"' :: escapeQuotes x) ++ ['"'] := by
    simp [quoteField]
  have hlen : 2 ≤ (quoteField x).length := by
    rw [hsplit]
    simp only [List.length_append, List.length_cons, List.length_nil]
    omega
  have hhead : (quoteField x).head? = some '"' := rfl
  have hlast : (quoteField x).getLast? = some '"' := by
    rw [hsplit]
    exact List.getLast?_concat _
  have hinner : ((quoteField x).drop 1).dropLast = escapeQuotes x := by
    rw [hsplit]
    simp [List.dropLast_concat]
  rw [unquote, if_pos ⟨hlen, hhead, hlast⟩, hinner, collapseQuotes_escapeQuotes]

/-- Witness for C4 at concrete inputs: a string with an embedded quote,
and a non-bookended string. -/
theorem c4_witness :
    unquote (quoteField ['h', '"', 'i']) = ['h', '"', 'i'] ∧
    unquote ['a', '"'] = ['a', '"'] :=
  ⟨c4_unquote_roundtrip.1 _, c4_unquote_roundtrip.2.1 ['a', '"'] (by decide)⟩

/-! ### C3: the flat store invariant -/

theorem fieldsLoopB_eq_take (delim : Char) :
    ∀ (fuel b : ℕ) (l : Str),
      fieldsLoopB delim fuel b l = (fieldsLoop delim fuel l).take b := by
  intro fuel
  induction fuel with
  | zero => intro b l; simp [fieldsLoopB, fieldsLoop]
  | succ fuel ih =>
    intro b l
    cases b with
    | zero => cases l <;> rfl
    | succ b =>
      cases l with
      | nil => rfl
      | cons c cs =>
        by_cases hc : c = '"' <;>
          simp only [fieldsLoopB, fieldsLoop, if_pos, if_neg, hc, ite_true, ite_false,
            List.take_succ_cons, ih]

theorem appendRowFields_eq (delim : Char) (ncols : ℕ) (l : Str) :
    appendRowFields delim ncols l =
      (parseLineFields delim l).take ncols ++
        List.replicate (ncols - (parseLineFields delim l).length) [] := by
  unfold appendRowFields parseLineFields
  rw [fieldsLoopB_eq_take]
  by_cases hl : l = []
  · subst hl
    simp [fieldsLoop]
  · simp only [if_neg hl]
    set L := fieldsLoop delim (l.length + 1) l with hL
    by_cases hd : l.getLast? = some delim
    · simp only [if_pos hd]
      by_cases hlen : ncols ≤ L.length
      · have htake : (L.take ncols).length = ncols := by
          simp [List.length_take]; omega
        have hcond : ¬((L.take ncols).length < ncols ∧ l.getLast? = some delim) := by
          rw [htake]; exact fun h => absurd h.1 (lt_irrefl _)
        rw [if_neg hcond, htake]
        have h2 : (L ++ [([] : Str)]).take ncols = L.take ncols := by
          rw [List.take_append_eq_append_take]
          have h3 : ncols - L.length = 0 := by omega
          simp [h3]
        have h1 : ncols - (L ++ [([] : Str)]).length = 0 := by
          simp only [List.length_append, List.length_cons, List.length_nil]
          omega
        rw [h1, h2]
        simp
      · push_neg at hlen
        have htake : L.take ncols = L := List.take_of_length_le (le_of_lt hlen)
        have hcond : (L.take ncols).length < ncols ∧ l.getLast? = some delim := by
          rw [htake]; exact ⟨hlen, hd⟩
        rw [if_pos hcond, htake]
        have h2 : (L ++ [([] : Str)]).take ncols = L ++ [[]] := by
          apply List.take_of_length_le
          simp only [List.length_append, List.length_cons, List.length_nil]
          omega
        rw [h2]
    · simp only [if_neg hd]
      have hcond : ¬((L.take ncols).length < ncols ∧ l.getLast? = some delim) :=
        fun h => hd h.2
      rw [if_neg hcond]
      simp only [List.append_nil]
      have h3 : ncols - (L.take ncols).length = ncols - L.length := by
        simp [List.length_take]; omega
      rw [h3]

theorem appendRowFields_length (delim : Char) (ncols : ℕ) (l : Str) :
    (appendRowFields delim ncols l).length = ncols := by
  rw [appendRowFields_eq]
  simp [List.length_take]
  omega

theorem parseBodyLoop_fields_length (delim : Char) (ncols : ℕ) :
    ∀ (fuel : ℕ) (l : Str),
      (parseBodyLoop delim ncols fuel l).1.length =
        (parseBodyLoop delim ncols fuel l).2 * ncols := by
  intro fuel
  induction fuel with
  | zero => intro l; simp [parseBodyLoop]
  | succ fuel ih =>
    intro l
    cases l with
    | nil => simp [parseBodyLoop]
    | cons c cs =>
      rw [parseBodyLoop]
      by_cases hb : (lineStep (c :: cs)).1 = []
      · rw [if_pos hb]; exact ih _
      · rw [if_neg hb]
        simp only [List.length_append, appendRowFields_length, ih]
        ring

theorem parseHeadLoop_fields_length (delim : Char) (ncols : ℕ) :
    ∀ (fuel m : ℕ) (l : Str),
      (parseHeadLoop delim ncols fuel m l).1.length =
        (parseHeadLoop delim ncols fuel m l).2.1 * ncols := by
  intro fuel
  induction fuel with
  | zero => intro m l; simp [parseHeadLoop]
  | succ fuel ih =>
    intro m l
    cases l with
    | nil => simp [parseHeadLoop]
    | cons c cs =>
      cases m with
      | zero => simp [parseHeadLoop]
      | succ m =>
        rw [parseHeadLoop]
        by_cases hb : (lineStep (c :: cs)).1 = []
        · rw [if_pos hb]; exact ih _ _
        · rw [if_neg hb]
          simp only [List.length_append, appendRowFields_length, ih]
          ring

theorem CsvReader.parse_fields_length (delim : Char) (data : Str) :
    (CsvReader.parse delim data).fields.length =
      (CsvReader.parse delim data).parsedRows * (CsvReader.parse delim data).ncols := by
  unfold CsvReader.parse
  by_cases h : (parseHeader delim data).1.length = 0
  · rw [if_pos h]; simp
  · rw [if_neg h]
    exact parseBodyLoop_fields_length _ _ _ _

theorem CsvReader.parseHead_fields_length (delim : Char) (n : ℕ) (data : Str) :
    (CsvReader.parseHead delim n data).fields.length =
      (CsvReader.parseHead delim n data).parsedRows *
        (CsvReader.parseHead delim n data).ncols := by
  unfold CsvReader.parseHead
  by_cases h : (parseHeader delim data).1.length = 0
  · rw [if_pos h]; simp
  · rw [if_neg h]
    exact parseHeadLoop_fields_length _ _ _ _ _

theorem rowAt_length_of_lt {r : ParseResult}
    (hinv : r.fields.length = r.parsedRows * r.ncols)
    {i : ℕ} (hi : i < r.parsedRows) :
    (CsvReader.rowAt r i).length = r.ncols := by
  unfold CsvReader.rowAt
  simp only [List.length_take, List.length_drop, hinv]
  have h1 : (i + 1) * r.ncols ≤ r.parsedRows * r.ncols :=
    Nat.mul_le_mul_right _ hi
  have h2 : (i + 1) * r.ncols = i * r.ncols + r.ncols := by ring
  omega

/-- C3: after every `parse` or `parse_head` the flat store holds exactly
`parsed_rows * ncols` field views; a row shorter than the header is padded
with empty fields and the excess of a longer row is discarded (the fields
appended for a line are the first `ncols` fields of the full line parse,
padded with empties up to `ncols`); `row(i)` returns exactly `ncols`
fields for every `i < parsed_rows`. -/
theorem c3_flat_store_invariant :
    (∀ (delim : Char) (ncols : ℕ) (l : Str),
      appendRowFields delim ncols l =
        (parseLineFields delim l).take ncols ++
          List.replicate (ncols - (parseLineFields delim l).length) []) ∧
    (∀ (delim : Char) (data : Str),
      (CsvReader.parse delim data).fields.length =
        (CsvReader.parse delim data).parsedRows * (CsvReader.parse delim data).ncols) ∧
    (∀ (delim : Char) (n : ℕ) (data : Str),
      (CsvReader.parseHead delim n data).fields.length =
        (CsvReader.parseHead delim n data).parsedRows *
          (CsvReader.parseHead delim n data).ncols) ∧
    (∀ (delim : Char) (data : Str) (i : ℕ),
      i < (CsvReader.parse delim data).parsedRows →
      (CsvReader.rowAt (CsvReader.parse delim data) i).length =
        (CsvReader.parse delim data).ncols) :=
  ⟨appendRowFields_eq, CsvReader.parse_fields_length, CsvReader.parseHead_fields_length,
    fun delim data _ hi => rowAt_length_of_lt (CsvReader.parse_fields_length delim data) hi⟩

/-- Witness for C3 on a concrete ragged input: one short row (padded) and
one long row (truncated). -/
theorem c3_witness :
    appendRowFields ',' 3 ['1', ',', '2'] =
      (parseLineFields ',' ['1', ',', '2']).take 3 ++
        List.replicate (3 - (parseLineFields ',' ['1', ',', '2']).length) [] ∧
    (CsvReader.rowAt (CsvReader.parse ','
        ['a', ',', 'b', '\n', '1', '\n', '1', ',', '2', ',', '3', '\n']) 1).length =
      (CsvReader.parse ','
        ['a', ',', 'b', '\n', '1', '\n', '1', ',', '2', ',', '3', '\n']).ncols :=
  ⟨c3_flat_store_invariant.1 ',' 3 ['1', ',', '2'],
    c3_flat_store_invariant.2.2.2 ',' _ 1 (by decide)⟩

theorem lineStep_rest_length {l : Str} (h : l ≠ []) :
    (lineStep l).2.length < l.length := by
  have hl : 0 < l.length := List.length_pos.mpr h
  simp only [lineStep, List.length_drop]
  omega

theorem parseBodyLoop_nil (d : Char) (n : ℕ) (f : ℕ) :
    parseBodyLoop d n f [] = ([], 0) := by
  cases f <;> simp [parseBodyLoop]

theorem parseHeadLoop_nil (d : Char) (n : ℕ) (f m : ℕ) :
    parseHeadLoop d n f m [] = ([], 0, []) := by
  cases f <;> simp [parseHeadLoop]

theorem parseBodyLoop_congr (d : Char) (n : ℕ) :
    ∀ (k : ℕ) (l : Str) (f g : ℕ), l.length ≤ k → l.length ≤ f → l.length ≤ g →
      parseBodyLoop d n f l = parseBodyLoop d n g l := by
  intro k
  induction k with
  | zero =>
    intro l f g hk _ _
    have hl : l = [] := List.length_eq_zero.mp (Nat.le_zero.mp hk)
    subst hl
    rw [parseBodyLoop_nil, parseBodyLoop_nil]
  | succ k ih =>
    intro l f g hk hf hg
    cases l with
    | nil => rw [parseBodyLoop_nil, parseBodyLoop_nil]
    | cons c cs =>
      have hlen : 0 < (c :: cs).length := List.length_pos.mpr (by simp)
      cases f with
      | zero => omega
      | succ f =>
        cases g with
        | zero => omega
        | succ g =>
          have hrest := lineStep_rest_length (l := c :: cs) (by simp)
          rw [parseBodyLoop, parseBodyLoop]
          have hrec := ih (lineStep (c :: cs)).2 f g (by omega) (by omega) (by omega)
          rw [hrec]

theorem parseHeadLoop_congr (d : Char) (n : ℕ) :
    ∀ (k : ℕ) (l : Str) (m f g : ℕ), l.length ≤ k → l.length ≤ f → l.length ≤ g →
      parseHeadLoop d n f m l = parseHeadLoop d n g m l := by
  intro k
  induction k with
  | zero =>
    intro l m f g hk _ _
    have hl : l = [] := List.length_eq_zero.mp (Nat.le_zero.mp hk)
    subst hl
    rw [parseHeadLoop_nil, parseHeadLoop_nil]
  | succ k ih =>
    intro l m f g hk hf hg
    cases l with
    | nil => rw [parseHeadLoop_nil, parseHeadLoop_nil]
    | cons c cs =>
      have hlen : 0 < (c :: cs).length := List.length_pos.mpr (by simp)
      cases f with
      | zero => omega
      | succ f =>
        cases g with
        | zero => omega
        | succ g =>
          cases m with
          | zero => rfl
          | succ m =>
            have hrest := lineStep_rest_length (l := c :: cs) (by simp)
            rw [parseHeadLoop, parseHeadLoop]
            have h1 := ih (lineStep (c :: cs)).2 (m + 1) f g (by omega) (by omega) (by omega)
            have h2 := ih (lineStep (c :: cs)).2 m f g (by omega) (by omega) (by omega)
            rw [h1, h2]

theorem allLinesNonBlank_congr :
    ∀ (k : ℕ) (l : Str) (f g : ℕ), l.length ≤ k → l.length ≤ f → l.length ≤ g →
      allLinesNonBlank f l = allLinesNonBlank g l := by
  intro k
  induction k with
  | zero =>
    intro l f g hk _ _
    have hl : l = [] := List.length_eq_zero.mp (Nat.le_zero.mp hk)
    subst hl
    cases f <;> cases g <;> rfl
  | succ k ih =>
    intro l f g hk hf hg
    cases l with
    | nil => cases f <;> cases g <;> rfl
    | cons c cs =>
      have hlen : 0 < (c :: cs).length := List.length_pos.mpr (by simp)
      cases f with
      | zero => omega
      | succ f =>
        cases g with
        | zero => omega
        | succ g =>
          have hrest := lineStep_rest_length (l := c :: cs) (by simp)
          rw [allLinesNonBlank, allLinesNonBlank]
          have hrec := ih (lineStep (c :: cs)).2 f g (by omega) (by omega) (by omega)
          rw [hrec]

theorem laneAdd_props (B : ℕ) (hB : B ≤ 254) :
    ∀ (acc : List ℕ) (chunk : Str), acc.length = chunk.length →
      (∀ a ∈ acc, a ≤ B) →
      (laneAdd acc chunk).length = acc.length ∧
      (laneAdd acc chunk).sum = acc.sum + chunk.count '\n' ∧
      (∀ a ∈ laneAdd acc chunk, a ≤ B + 1) := by
  intro acc
  induction acc with
  | nil =>
    intro chunk hlen _
    have : chunk = [] := List.length_eq_zero.mp hlen.symm
    subst this
    simp [laneAdd]
  | cons a as ih =>
    intro chunk hlen hb
    cases chunk with
    | nil => simp at hlen
    | cons c cs =>
      have ha : a ≤ B := hb a (by simp)
      have has : ∀ x ∈ as, x ≤ B := fun x hx => hb x (by simp [hx])
      have hlen' : as.length = cs.length := by simpa using hlen
      obtain ⟨ih1, ih2, ih3⟩ := ih cs hlen' has
      have hmod : (a + (if c = '\n' then 1 else 0)) % 256 =
          a + (if c = '\n' then 1 else 0) := by
        apply Nat.mod_eq_of_lt
        split <;> omega
      have hstep : laneAdd (a :: as) (c :: cs) =
          ((a + (if c = '\n' then 1 else 0)) % 256) :: laneAdd as cs := rfl
      constructor
      · rw [hstep, List.length_cons, List.length_cons, ih1]
      constructor
      · rw [hstep, List.sum_cons, hmod, ih2]
        by_cases h : c = '\n' <;> simp [h, List.count_cons] <;> omega
      · intro x hx
        rw [hstep] at hx
        rcases List.mem_cons.mp hx with h | h
        · rw [h, hmod]; split <;> omega
        · exact ih3 x h

theorem neonAcc_props (l : Str) :
    ∀ (b : ℕ), 16 * b ≤ l.length → b ≤ 255 →
      (neonAcc l b).length = 16 ∧
      (neonAcc l b).sum = (l.take (16 * b)).count '\n' ∧
      (∀ a ∈ neonAcc l b, a ≤ b) := by
  intro b
  induction b with
  | zero =>
    intro _ _
    refine ⟨by simp [neonAcc], by simp [neonAcc], fun a ha => ?_⟩
    simp [neonAcc] at ha
    omega
  | succ b ih =>
    intro hle h255
    have hle' : 16 * b ≤ l.length := by omega
    obtain ⟨ih1, ih2, ih3⟩ := ih hle' (by omega)
    have hstep : neonAcc l (b + 1) =
        laneAdd (neonAcc l b) ((l.drop (16 * b)).take 16) := by
      unfold neonAcc
      rw [List.range_succ, List.foldl_append]
      rfl
    have hchunklen : ((l.drop (16 * b)).take 16).length = 16 := by
      simp only [List.length_take, List.length_drop]
      omega
    have hbound : ∀ a ∈ neonAcc l b, a ≤ b := ih3
    obtain ⟨p1, p2, p3⟩ := laneAdd_props b (by omega) (neonAcc l b)
      ((l.drop (16 * b)).take 16) (by rw [ih1, hchunklen]) hbound
    refine ⟨by rw [hstep, p1, ih1], ?_, ?_⟩
    · rw [hstep, p2, ih2]
      have hsplit : l.take (16 * (b + 1)) =
          l.take (16 * b) ++ (l.drop (16 * b)).take 16 := by
        rw [show 16 * (b + 1) = 16 * b + 16 from by ring]
        rw [List.take_add]
      rw [hsplit, List.count_append]
    · intro a ha
      rw [hstep] at ha
      exact le_trans (p3 a ha) (by omega)

theorem countNewlinesVec_eq :
    ∀ (fuel : ℕ) (l : Str), l.count '\n' ≤ 255 →
      countNewlinesVec fuel l = l.count '\n' := by
  intro fuel
  induction fuel with
  | zero => intro l _; rfl
  | succ fuel ih =>
    intro l hc
    rw [countNewlinesVec]
    by_cases h16 : 16 ≤ l.length
    · rw [if_pos h16]
      set b := min (l.length / 16) 255 with hb
      have hble : 16 * b ≤ l.length := by
        have h1 : b ≤ l.length / 16 := min_le_left _ _
        have h2 : 16 * (l.length / 16) ≤ l.length := Nat.mul_div_le _ _
        omega
      have hb255 : b ≤ 255 := min_le_right _ _
      obtain ⟨_, hsum, _⟩ := neonAcc_props l b hble hb255
      have hsplitcount : (l.take (16 * b)).count '\n' + (l.drop (16 * b)).count '\n' =
          l.count '\n' := by
        conv_rhs => rw [← List.take_append_drop (16 * b) l]
        rw [List.count_append]
      have htail : (l.drop (16 * b)).count '\n' ≤ 255 := by omega
      have htake : (l.take (16 * b)).count '\n' ≤ 255 := by omega
      show neonBatchSum l b + countNewlinesVec fuel (List.drop (16 * b) l) =
        List.count '\n' l
      rw [show neonBatchSum l b = (neonAcc l b).sum % 256 from rfl, hsum,
        Nat.mod_eq_of_lt (by omega), ih _ htail]
      omega
    · rw [if_neg h16]

/-- For a remainder with at most 255 newlines, the NEON counter agrees
with the scalar reference. -/
theorem count_newlines_eq_of_le (l : Str) (h : l.count '\n' ≤ 255) :
    count_newlines l = l.count '\n' :=
  countNewlinesVec_eq l.length l h

theorem firstNl_le (l : Str) : firstNl l ≤ l.length := by
  induction l with
  | nil => simp [firstNl]
  | cons c cs ih =>
    rw [firstNl]
    split
    · simp
    · simp only [List.length_cons]
      omega

theorem firstNl_take (l : Str) : '\n' ∉ l.take (firstNl l) := by
  induction l with
  | nil => simp [firstNl]
  | cons c cs ih =>
    rw [firstNl]
    by_cases h : c = '\n'
    · simp [h]
    · rw [if_neg h, List.take_succ_cons]
      intro hmem
      rcases List.mem_cons.mp hmem with h1 | h1
      · exact h h1.symm
      · exact ih h1

theorem firstNl_decomp (l : Str) :
    (firstNl l = l.length ∧ l.drop (firstNl l) = []) ∨
      l.drop (firstNl l) = '\n' :: l.drop (firstNl l + 1) := by
  induction l with
  | nil => left; exact ⟨rfl, rfl⟩
  | cons c cs ih =>
    rw [firstNl]
    by_cases h : c = '\n'
    · right
      rw [if_pos h, List.drop_zero, List.drop_one]
      rw [h]
      rfl
    · rw [if_neg h]
      rcases ih with ⟨h1, h2⟩ | h1

      · left
        constructor
        · simp [h1]
        · rw [List.drop_succ_cons, h2]
      · right
        rw [List.drop_succ_cons, List.drop_succ_cons, h1]

theorem findLineEnd_no_quote {l : Str} (h : '"' ∉ l) : findLineEnd l = firstNl l := by
  rw [show findLineEnd l =
      (if (l.take (firstNl l)).contains '"' then slowLineEnd l false else firstNl l)
    from rfl]
  have hc : (l.take (firstNl l)).contains '"' = false := by
    have hm : '"' ∉ l.take (firstNl l) := fun hm => h (List.mem_of_mem_take hm)
    simpa using hm
  rw [hc]
  simp

theorem countRowsFrom_nil : countRowsFrom [] = 0 := rfl

/-- Core counting identity: on a quote-free remainder with no blank lines
and at most 255 newlines, `count_rows_from` counts exactly the rows that
the full body parse would produce. -/
theorem countRowsFrom_eq_body (d : Char) (n : ℕ) :
    ∀ (k : ℕ) (l : Str), l.length ≤ k → '"' ∉ l →
      allLinesNonBlank l.length l = true → l.count '\n' ≤ 255 →
      countRowsFrom l = (parseBodyLoop d n (l.length + 1) l).2 := by
  intro k
  induction k with
  | zero =>
    intro l hk _ _ _
    have hl : l = [] := List.length_eq_zero.mp (Nat.le_zero.mp hk)
    subst hl
    rw [countRowsFrom_nil, parseBodyLoop_nil]
  | succ k ih =>
    intro l hk hq hnb hcnt
    by_cases hlne : l = []
    · subst hlne
      rw [countRowsFrom_nil, parseBodyLoop_nil]
    · obtain ⟨c, cs, hL⟩ := List.exists_cons_of_ne_nil hlne
      have hlenpos : 0 < l.length := List.length_pos.mpr hlne
      -- the quote-free fast paths
      have hcont : l.contains '"' = false := by simpa using hq
      have hfle : findLineEnd l = firstNl l := findLineEnd_no_quote hq
      set e := firstNl l with he
      have hrest : (lineStep l).2 = l.drop (e + 1) := by
        simp only [lineStep, hfle]
      have hrl : (lineStep l).2.length < l.length := lineStep_rest_length hlne
      -- one unfolding of the non-blank-lines predicate
      have hux : allLinesNonBlank l.length l =
          (if (lineStep l).1 = [] then false
           else allLinesNonBlank (l.length - 1) (lineStep l).2) := by
        conv_lhs => rw [hL, show (c :: cs).length = cs.length + 1 from rfl,
          allLinesNonBlank]
        rw [← hL]
        rw [show cs.length = l.length - 1 from by rw [hL]; simp]
      have hb1 : (lineStep l).1 ≠ [] := by
        intro hb
        rw [hux, if_pos hb] at hnb
        exact absurd hnb (by simp)
      have hnb2 : allLinesNonBlank (lineStep l).2.length (lineStep l).2 = true := by
        rw [hux, if_neg hb1] at hnb
        rw [allLinesNonBlank_congr (l.length - 1) (lineStep l).2
          (lineStep l).2.length (l.length - 1) (by omega) le_rfl (by omega)]
        exact hnb
      -- unfold the body loop one step
      have hbody : (parseBodyLoop d n (l.length + 1) l).2 =
          (parseBodyLoop d n ((lineStep l).2.length + 1) (lineStep l).2).2 + 1 := by
        conv_lhs => rw [hL]
        rw [show (parseBodyLoop d n ((c :: cs).length + 1) (c :: cs)) =
            (let p := lineStep (c :: cs)
             if p.1 = [] then parseBodyLoop d n (c :: cs).length p.2
             else
               let q := parseBodyLoop d n (c :: cs).length p.2
               (appendRowFields d n p.1 ++ q.1, q.2 + 1)) from by
          rw [parseBodyLoop]]
        rw [← hL]
        simp only
        rw [if_neg hb1]
        rw [parseBodyLoop_congr d n l.length (lineStep l).2 l.length
          ((lineStep l).2.length + 1) (by omega) (by omega) (by omega)]
      -- count_rows_from in the fast path
      have hcrf : countRowsFrom l =
          l.count '\n' + (if l.getLast? ≠ some '\n' then 1 else 0) := by
        rw [countRowsFrom, if_neg hlne, hcont]
        simp only [Bool.false_eq_true, if_false]
        rw [count_newlines_eq_of_le l hcnt]
      rcases firstNl_decomp l with ⟨hfe, hdrop⟩ | hdrop
      · -- no newline at all: a single unterminated row
        have hAeq : l.take e = l := by
          rw [he, hfe, List.take_length]
        have hnonl : '\n' ∉ l := by
          rw [← hAeq]; exact firstNl_take l
        have hcount0 : l.count '\n' = 0 := List.count_eq_zero.mpr hnonl
        have hlast : l.getLast? ≠ some '\n' := by
          rw [List.getLast?_eq_getLast_of_ne_nil hlne]
          intro hcontra
          rw [Option.some.injEq] at hcontra
          have hmem := List.getLast_mem hlne
          rw [hcontra] at hmem
          exact hnonl hmem
        have hrestnil : (lineStep l).2 = [] := by
          rw [hrest]
          apply List.drop_eq_nil_of_le
          omega
        rw [hcrf, hcount0, if_pos hlast, hbody, hrestnil, parseBodyLoop_nil]
      · -- a newline splits off the first line
        set A := l.take e with hA
        set rest := l.drop (e + 1) with hrestdef
        have hsplit : l = A ++ '\n' :: rest := by
          conv_lhs => rw [← List.take_append_drop e l]
          rw [hdrop]
        have hcountA : A.count '\n' = 0 :=
          List.count_eq_zero.mpr (firstNl_take l)
        have hcountl : l.count '\n' = rest.count '\n' + 1 := by
          conv_lhs => rw [hsplit]
          rw [List.count_append, hcountA]
          simp [List.count_cons]
        have hqrest : '"' ∉ rest := fun hm => hq (List.mem_of_mem_drop hm)
        have hrestlen : rest.length < l.length := by
          rw [hrestdef, List.length_drop]
          omega
        have hnbrest : allLinesNonBlank rest.length rest = true := by
          have := hnb2
          rwa [hrest] at this
        have hcntrest : rest.count '\n' ≤ 255 := by omega
        have hIH := ih rest (by omega) hqrest hnbrest hcntrest
        by_cases hrn : rest = []
        · have hlst : l.getLast? = some '\n' := by
            rw [hsplit, hrn, List.getLast?_concat]
          rw [hcrf, hcountl, hrn, if_neg (by simp [hlst]), hbody, hrest, hrn,
            parseBodyLoop_nil]
          simp
        · have hlst : l.getLast? = rest.getLast? := by
            rw [hsplit, List.getLast?_append_of_ne_nil _ (by simp),
              show ('\n' :: rest) = ['\n'] ++ rest from rfl,
              List.getLast?_append_of_ne_nil _ hrn]
          have hcrfrest : countRowsFrom rest =
              rest.count '\n' + (if rest.getLast? ≠ some '\n' then 1 else 0) := by
            rw [countRowsFrom, if_neg hrn]
            have hcontr : rest.contains '"' = false := by simpa using hqrest
            rw [hcontr]
            simp only [Bool.false_eq_true, if_false]
            rw [count_newlines_eq_of_le rest hcntrest]
          rw [hcrf, hcountl, hlst, hbody, hrest, ← hIH, hcrfrest]
          omega

theorem parseBodyLoop_cons (d : Char) (n fuel : ℕ) (c : Char) (cs : Str) :
    parseBodyLoop d n (fuel + 1) (c :: cs) =
      (let p := lineStep (c :: cs)
       if p.1 = [] then parseBodyLoop d n fuel p.2
       else
         let q := parseBodyLoop d n fuel p.2
         (appendRowFields d n p.1 ++ q.1, q.2 + 1)) := by
  rw [parseBodyLoop]

theorem parseHeadLoop_zero (d : Char) (n fuel : ℕ) (c : Char) (cs : Str) :
    parseHeadLoop d n (fuel + 1) 0 (c :: cs) = ([], 0, c :: cs) := by
  rw [parseHeadLoop]

theorem parseHeadLoop_cons (d : Char) (n fuel m : ℕ) (c : Char) (cs : Str) :
    parseHeadLoop d n (fuel + 1) (m + 1) (c :: cs) =
      (let p := lineStep (c :: cs)
       if p.1 = [] then parseHeadLoop d n fuel (m + 1) p.2
       else
         let q := parseHeadLoop d n fuel m p.2
         (appendRowFields d n p.1 ++ q.1, q.2.1 + 1, q.2.2)) := by
  rw [parseHeadLoop]

/-- `parse_head` parses `min(max_rows, ·)` of the rows the full body loop
parses: both loops see the same line decomposition. -/
theorem headLoop_rows_min (d : Char) (ncols : ℕ) :
    ∀ (k : ℕ) (l : Str) (m f : ℕ), l.length ≤ k → l.length ≤ f →
      (parseHeadLoop d ncols f m l).2.1 = min m (parseBodyLoop d ncols f l).2 := by
  intro k
  induction k with
  | zero =>
    intro l m f hk _
    have hl : l = [] := List.length_eq_zero.mp (Nat.le_zero.mp hk)
    subst hl
    rw [parseHeadLoop_nil, parseBodyLoop_nil]
    simp
  | succ k ih =>
    intro l m f hk hf
    by_cases hlne : l = []
    · subst hlne
      rw [parseHeadLoop_nil, parseBodyLoop_nil]
      simp
    · obtain ⟨c, cs, hL⟩ := List.exists_cons_of_ne_nil hlne
      subst hL
      have hlen : (c :: cs).length = cs.length + 1 := rfl
      cases f with
      | zero => omega
      | succ f =>
        have hrl := lineStep_rest_length (l := c :: cs) (by simp)
        cases m with
        | zero =>
          rw [parseHeadLoop_zero]
          simp
        | succ m =>
          rw [parseHeadLoop_cons, parseBodyLoop_cons]
          simp only
          by_cases hb : (lineStep (c :: cs)).1 = []
          · rw [if_pos hb, if_pos hb]
            exact ih _ _ _ (by omega) (by omega)
          · rw [if_neg hb, if_neg hb]
            simp only
            rw [ih (lineStep (c :: cs)).2 m f (by omega) (by omega)]
            exact (Nat.succ_min_succ m _).symm

/-- The full body loop's row count splits as the head loop's count plus a
full body parse of the head loop's remainder. -/
theorem bodyLoop_split (d : Char) (ncols : ℕ) :
    ∀ (k : ℕ) (l : Str) (m f : ℕ), l.length ≤ k → l.length ≤ f →
      (parseBodyLoop d ncols f l).2 =
        (parseHeadLoop d ncols f m l).2.1 +
          (parseBodyLoop d ncols ((parseHeadLoop d ncols f m l).2.2.length + 1)
            (parseHeadLoop d ncols f m l).2.2).2 := by
  intro k
  induction k with
  | zero =>
    intro l m f hk _
    have hl : l = [] := List.length_eq_zero.mp (Nat.le_zero.mp hk)
    subst hl
    rw [parseHeadLoop_nil, parseBodyLoop_nil]
    simp [parseBodyLoop_nil]
  | succ k ih =>
    intro l m f hk hf
    by_cases hlne : l = []
    · subst hlne
      rw [parseHeadLoop_nil, parseBodyLoop_nil]
      simp [parseBodyLoop_nil]
    · obtain ⟨c, cs, hL⟩ := List.exists_cons_of_ne_nil hlne
      subst hL
      have hlen : (c :: cs).length = cs.length + 1 := rfl
      cases f with
      | zero => omega
      | succ f =>
        have hrl := lineStep_rest_length (l := c :: cs) (by simp)
        cases m with
        | zero =>
          rw [parseHeadLoop_zero]
          simp only [Nat.zero_add]
          exact congrArg Prod.snd (parseBodyLoop_congr d ncols (cs.length + 1) (c :: cs)
            (f + 1) ((c :: cs).length + 1) (by omega) (by omega) (by omega))
        | succ m =>
          rw [parseHeadLoop_cons, parseBodyLoop_cons]
          simp only
          by_cases hb : (lineStep (c :: cs)).1 = []
          · rw [if_pos hb, if_pos hb]
            exact ih _ _ _ (by omega) (by omega)
          · rw [if_neg hb, if_neg hb]
            simp only
            have := ih (lineStep (c :: cs)).2 m f (by omega) (by omega)
            omega

theorem count_drop_le (a : Char) (l : Str) (m : ℕ) :
    (l.drop m).count a ≤ l.count a := by
  conv_rhs => rw [← List.take_append_drop m l]
  rw [List.count_append]
  omega

/-- Unfolding of the blank-line predicate at a non-empty input. -/
theorem allLinesNonBlank_rest {l : Str} (hlne : l ≠ [])
    (hnb : allLinesNonBlank l.length l = true) :
    (lineStep l).1 ≠ [] ∧
      allLinesNonBlank (lineStep l).2.length (lineStep l).2 = true := by
  obtain ⟨c, cs, hL⟩ := List.exists_cons_of_ne_nil hlne
  subst hL
  have hrl := lineStep_rest_length (l := c :: cs) (by simp)
  rw [show (c :: cs).length = cs.length + 1 from rfl, allLinesNonBlank] at hnb
  by_cases hb : (lineStep (c :: cs)).1 = []
  · rw [if_pos hb] at hnb
    exact absurd hnb (by simp)
  · rw [if_neg hb] at hnb
    refine ⟨hb, ?_⟩
    rw [allLinesNonBlank_congr cs.length (lineStep (c :: cs)).2
      (lineStep (c :: cs)).2.length cs.length (by simp at hrl; omega) le_rfl
      (by simp at hrl; omega)]
    exact hnb

/-- The head loop's remainder inherits quote-freedom, blank-line freedom
and the newline bound from its input. -/
theorem headLoop_rem_props (d : Char) (ncols : ℕ) :
    ∀ (k : ℕ) (l : Str) (m f : ℕ), l.length ≤ k → l.length ≤ f →
      ((parseHeadLoop d ncols f m l).2.2.count '\n' ≤ l.count '\n') ∧
      ('"' ∉ l → '"' ∉ (parseHeadLoop d ncols f m l).2.2) ∧
      (allLinesNonBlank l.length l = true →
        allLinesNonBlank (parseHeadLoop d ncols f m l).2.2.length
          (parseHeadLoop d ncols f m l).2.2 = true) := by
  intro k
  induction k with
  | zero =>
    intro l m f hk _
    have hl : l = [] := List.length_eq_zero.mp (Nat.le_zero.mp hk)
    subst hl
    rw [parseHeadLoop_nil]
    exact ⟨le_rfl, fun h => h, fun h => h⟩
  | succ k ih =>
    intro l m f hk hf
    by_cases hlne : l = []
    · subst hlne
      rw [parseHeadLoop_nil]
      exact ⟨le_rfl, fun h => h, fun h => h⟩
    · obtain ⟨c, cs, hL⟩ := List.exists_cons_of_ne_nil hlne
      subst hL
      have hlen : (c :: cs).length = cs.length + 1 := rfl
      cases f with
      | zero => omega
      | succ f =>
        have hrl := lineStep_rest_length (l := c :: cs) (by simp)
        have hrdrop : (lineStep (c :: cs)).2 =
            (c :: cs).drop (findLineEnd (c :: cs) + 1) := rfl
        have hcle : (lineStep (c :: cs)).2.count '\n' ≤ (c :: cs).count '\n' := by
          rw [hrdrop]; exact count_drop_le _ _ _
        have hqle : '"' ∉ (c :: cs) → '"' ∉ (lineStep (c :: cs)).2 := by
          intro hq hm
          rw [hrdrop] at hm
          exact hq (List.mem_of_mem_drop hm)
        cases m with
        | zero =>
          rw [parseHeadLoop_zero]
          exact ⟨le_rfl, fun h => h, fun h => h⟩
        | succ m =>
          rw [parseHeadLoop_cons]
          simp only
          by_cases hb : (lineStep (c :: cs)).1 = []
          · rw [if_pos hb]
            obtain ⟨p1, p2, p3⟩ := ih (lineStep (c :: cs)).2 (m + 1) f (by omega) (by omega)
            refine ⟨le_trans p1 hcle, fun hq => p2 (hqle hq), fun hnb => ?_⟩
            exact p3 (allLinesNonBlank_rest (by simp) hnb).2
          · rw [if_neg hb]
            simp only
            obtain ⟨p1, p2, p3⟩ := ih (lineStep (c :: cs)).2 m f (by omega) (by omega)
            refine ⟨le_trans p1 hcle, fun hq => p2 (hqle hq), fun hnb => ?_⟩
            exact p3 (allLinesNonBlank_rest (by simp) hnb).2

theorem parseHeader_rest_no_quote {delim : Char} {data : Str} (hq : '"' ∉ data) :
    '"' ∉ (parseHeader delim data).2 := by
  unfold parseHeader
  by_cases h : data = []
  · rw [if_pos h]; simp
  · rw [if_neg h]
    intro hm
    exact hq (List.mem_of_mem_drop hm)

/-- C1 (amended): after `parse_head(d, n)`, `row_count()` equals
`min(n, actual_row_count)` for every input; and `total_rows()` equals the
true row count (the count a full `parse` produces) provided the input is
quote-free, the body after the header contains no blank lines, and that
body holds at most 255 newlines (blank lines in the unparsed remainder are
counted by the estimator though a full parse skips them, and the
vectorized newline counter miscounts past 255 newlines per batch — see
C8). -/
theorem c1_parse_head_amended (delim : Char) (n : ℕ) (data : Str) :
    (CsvReader.parseHead delim n data).parsedRows =
      min n (CsvReader.parse delim data).parsedRows ∧
    ('"' ∉ data →
      noBlankLines (parseHeader delim data).2 = true →
      (parseHeader delim data).2.count '\n' ≤ 255 →
      (CsvReader.parseHead delim n data).totalRows =
        (CsvReader.parse delim data).totalRows) := by
  constructor
  · unfold CsvReader.parseHead CsvReader.parse
    by_cases h : (parseHeader delim data).1.length = 0
    · rw [if_pos h, if_pos h]
      simp
    · rw [if_neg h, if_neg h]
      simp only
      exact headLoop_rows_min delim _ (parseHeader delim data).2.length _ _ _
        le_rfl (by omega)
  · intro hq hnb hcnt
    unfold CsvReader.parseHead CsvReader.parse
    by_cases h : (parseHeader delim data).1.length = 0
    · rw [if_pos h, if_pos h]
    · rw [if_neg h, if_neg h]
      simp only
      set ncols := (parseHeader delim data).1.length with hnc
      set rest := (parseHeader delim data).2 with hrest
      set rem := (parseHeadLoop delim ncols (rest.length + 1) n rest).2.2 with hrem
      have hqrest : '"' ∉ rest := parseHeader_rest_no_quote hq
      obtain ⟨hp1, hp2, hp3⟩ := headLoop_rem_props delim ncols rest.length rest n
        (rest.length + 1) le_rfl (by omega)
      have hqrem : '"' ∉ rem := hp2 hqrest
      have hnbrem : allLinesNonBlank rem.length rem = true := hp3 hnb
      have hcntrem : rem.count '\n' ≤ 255 := le_trans hp1 hcnt
      have hcount : countRowsFrom rem = (parseBodyLoop delim ncols (rem.length + 1) rem).2 :=
        countRowsFrom_eq_body delim ncols rem.length rem le_rfl hqrem hnbrem hcntrem
      have hsplit := bodyLoop_split delim ncols rest.length rest n (rest.length + 1)
        le_rfl (by omega)
      rw [← hrem] at hsplit
      rw [hcount]
      omega

/-- C1 counterexample: for the input `"a\n1\n\n2\n"` and `n = 1`, the
full parse yields 2 rows (the blank line is skipped), but `parse_head`
reports `total_rows = 3` because the estimator counts the blank line's
newline as a row. -/
theorem c1_counterexample :
    (CsvReader.parseHead ',' 1 ['a', '\n', '1', '\n', '\n', '2', '\n']).totalRows = 3 ∧
    (CsvReader.parse ',' ['a', '\n', '1', '\n', '\n', '2', '\n']).totalRows = 2 ∧
    (CsvReader.parse ',' ['a', '\n', '1', '\n', '\n', '2', '\n']).parsedRows = 2 := by
  refine ⟨?_, ?_, ?_⟩ <;> decide

/-- Witness for C1 at a concrete input without a trailing newline. -/
theorem c1_witness :
    (CsvReader.parseHead ',' 1 ['a', '\n', '1', '\n', '2']).parsedRows =
      min 1 (CsvReader.parse ',' ['a', '\n', '1', '\n', '2']).parsedRows ∧
    (CsvReader.parseHead ',' 1 ['a', '\n', '1', '\n', '2']).totalRows =
      (CsvReader.parse ',' ['a', '\n', '1', '\n', '2']).totalRows :=
  ⟨(c1_parse_head_amended ',' 1 _).1,
    (c1_parse_head_amended ',' 1 _).2 (by decide) (by decide) (by decide)⟩

/-! ### C8: the vectorized newline counter vs the scalar reference -/

set_option maxRecDepth 4000 in
/-- C8 (code bug): on 256 consecutive newline bytes the NEON counter
returns 0 while the scalar reference returns 256 — the horizontal add
across the 16 byte lanes (`vaddvq_u8`) returns an unsigned byte, so a
batch holding 256 or more newlines wraps modulo 256 even though the
255-iteration batching keeps each individual lane from wrapping.
Consequently `count_rows_from` disagrees with its vectorization-disabled
variant on the same bytes. -/
theorem c8_vec_newline_overflow :
    count_newlines (List.replicate 256 '\n') = 0 ∧
    scalarNewlineCount (List.replicate 256 '\n') = 256 ∧
    countRowsFrom (List.replicate 256 '\n') = 0 ∧
    countRowsFromNoVec (List.replicate 256 '\n') = 256 := by
  refine ⟨?_, ?_, ?_, ?_⟩ <;> decide

/-- C2 counterexample: a column sampled as `["1", "2.5"]` (each value an
optional sign and digits with at most one decimal point, no earlier
predicate matching all values) is classified Text, not Float64 — the
float predicate rejects the bare integer `"1"`. -/
theorem c2_counterexample :
    (infer_schema ⟨[['v']], [['1'], ['2', '.', '5']], 1, 2, 2⟩ 100).map
        ColumnSchema.ty = [ColumnType.Text] ∧
    ColumnType.Text ≠ ColumnType.Float64 := by
  refine ⟨by decide, by decide⟩

/-- C2 (amended): a column whose sampled non-empty unquoted values each
pass the float predicate — optional sign, digits with at most one decimal
point and/or one exponent marker (`e`/`E`, optional sign, digits), at
least one digit before any exponent, and additionally containing a
decimal point or an exponent (a bare integer string does not qualify) —
and for which none of Bool, Currency, Date, Int64 holds for every sampled
value, is classified Float64; e.g. sampled values `["1.0", "2.5"]` are
Float64 while `["1", "2.5"]` fall through (see the counterexample). -/
theorem c2_float64_amended (r : ParseResult) (s col : ℕ)
    (hcol : col < r.ncols)
    (hvne : sampledValues r (min r.parsedRows s) col ≠ [])
    (hfl : (sampledValues r (min r.parsedRows s) col).all
      (fun v => is_float64 (unquote v)) = true)
    (hnb : (sampledValues r (min r.parsedRows s) col).all
      (fun v => is_bool (unquote v)) = false)
    (hnc : (sampledValues r (min r.parsedRows s) col).all
      (fun v => is_currency (unquote v)) = false)
    (hnd : (sampledValues r (min r.parsedRows s) col).all
      (fun v => is_date (unquote v)) = false)
    (hni : (sampledValues r (min r.parsedRows s) col).all
      (fun v => is_int64 (unquote v)) = false) :
    (infer_schema r s)[col]? =
      some ⟨unquote ((r.headers[col]?).getD []), ColumnType.Float64⟩ := by
  have hnz : min r.parsedRows s ≠ 0 := by
    intro h0
    apply hvne
    rw [h0]
    rfl
  unfold infer_schema
  rw [List.getElem?_map, List.getElem?_range hcol]
  simp only [Option.map_some']
  rw [if_neg hnz, if_neg hvne]
  rw [if_neg (by rw [hnb]; simp), if_neg (by rw [hnc]; simp),
    if_neg (by rw [hnd]; simp), if_neg (by rw [hni]; simp), if_pos hfl]

/-- Witness for C2 at the concrete sample `["1.0", "2.5"]`. -/
theorem c2_witness :
    (infer_schema ⟨[['v']], [['1', '.', '0'], ['2', '.', '5']], 1, 2, 2⟩ 100)[0]? =
      some ⟨['v'], ColumnType.Float64⟩ :=
  c2_float64_amended ⟨[['v']], [['1', '.', '0'], ['2', '.', '5']], 1, 2, 2⟩ 100 0
    (by decide) (by decide) (by decide) (by decide) (by decide) (by decide) (by decide)

/-! ### C5 and C7: filter evaluation -/

theorem resolveFilters_ok_of_all {headers : List Str} {schema : List ColumnSchema}
    {ci : Bool} :
    ∀ {filters : List Filter},
      (∀ f ∈ filters, (resolveFilter headers schema ci f).isOk = true) →
      ∃ res, resolveFilters headers schema ci filters = Except.ok res := by
  intro filters
  induction filters with
  | nil => intro _; exact ⟨[], rfl⟩
  | cons f fs ih =>
    intro h
    have hf := h f (by simp)
    obtain ⟨rc, hrc⟩ : ∃ rc, resolveFilter headers schema ci f = Except.ok rc := by
      cases hval : resolveFilter headers schema ci f with
      | error e => rw [hval] at hf; exact absurd hf (by simp [Except.isOk, Except.toBool])
      | ok rc => exact ⟨rc, rfl⟩
    obtain ⟨res, hres⟩ := ih (fun g hg => h g (by simp [hg]))
    refine ⟨rc :: res, ?_⟩
    rw [resolveFilters, hrc, hres]

/-- C5: on a numeric-typed column with an operator other than
Contains/StartsWith/EndsWith, `row_matches` compares the unquoted cell and
the filter literal numerically after `$`/`,` stripping, and silently falls
back to string comparison when either side fails to parse; and resolvable
filters never make `apply_filters` fail, whatever the cell contents. -/
theorem c5_numeric_fallback :
    (∀ (row : List Str) (f : Filter) (colIdx : ℕ) (colType : ColumnType)
        (ci : Bool) (raw : Str),
      row[colIdx]? = some raw →
      is_numeric_type colType = true →
      f.op ≠ FilterOp.Contains → f.op ≠ FilterOp.StartsWith → f.op ≠ FilterOp.EndsWith →
      row_matches row f colIdx colType ci =
        (match parse_numeric (unquote raw), parse_numeric f.value with
         | some cv, some fv => compare_numeric cv f.op fv
         | _, _ => compare_strings (unquote raw) f.op f.value ci)) ∧
    (∀ (filters : List Filter) (r : ParseResult) (schema : List ColumnSchema)
        (ci orLogic : Bool),
      (∀ f ∈ filters, (resolveFilter r.headers schema ci f).isOk = true) →
      ∃ l, apply_filters filters r schema ci orLogic = Except.ok l) := by
  constructor
  · intro row f colIdx colType ci raw hraw hnum hc hsw hew
    unfold row_matches
    rw [hraw]
    simp only
    rw [if_pos]
    rw [hnum]
    simp [hc, hsw, hew]
  · intro filters r schema ci orLogic h
    obtain ⟨res, hres⟩ := resolveFilters_ok_of_all h
    unfold apply_filters
    rw [hres]
    exact ⟨_, rfl⟩

/-- Witness for C5: a numeric-typed cell `"x"` that fails numeric parsing
falls back to string comparison without an error. -/
theorem c5_witness :
    row_matches [['x']] ⟨['a'], FilterOp.Gt, ['5']⟩ 0 ColumnType.Int64 false =
      (match parse_numeric (unquote ['x']), parse_numeric ['5'] with
       | some cv, some fv => compare_numeric cv FilterOp.Gt fv
       | _, _ => compare_strings (unquote ['x']) FilterOp.Gt ['5'] false) ∧
    (∃ l, apply_filters [⟨['a'], FilterOp.Gt, ['5']⟩]
        ⟨[['a']], [['x']], 1, 1, 1⟩ [⟨['a'], ColumnType.Int64⟩] false false =
      Except.ok l) :=
  ⟨c5_numeric_fallback.1 [['x']] ⟨['a'], FilterOp.Gt, ['5']⟩ 0 ColumnType.Int64 false
      ['x'] (by decide) (by decide) (by decide) (by decide) (by decide),
    c5_numeric_fallback.2 [⟨['a'], FilterOp.Gt, ['5']⟩]
      ⟨[['a']], [['x']], 1, 1, 1⟩ [⟨['a'], ColumnType.Int64⟩] false false (by decide)⟩

/-- C7: a successful `apply_filters` returns a strictly ascending list of
row indices; with no filters it returns every row index under AND
semantics and the empty list under OR semantics, raising no error in
either case. -/
theorem c7_apply_filters :
    (∀ (filters : List Filter) (r : ParseResult) (schema : List ColumnSchema)
        (ci orLogic : Bool) (l : List ℕ),
      apply_filters filters r schema ci orLogic = Except.ok l →
      l.Sorted (· < ·)) ∧
    (∀ (r : ParseResult) (schema : List ColumnSchema) (ci : Bool),
      apply_filters [] r schema ci false = Except.ok (List.range r.parsedRows)) ∧
    (∀ (r : ParseResult) (schema : List ColumnSchema) (ci : Bool),
      apply_filters [] r schema ci true = Except.ok []) := by
  refine ⟨?_, ?_, ?_⟩
  · intro filters r schema ci orLogic l h
    unfold apply_filters at h
    cases hres : resolveFilters r.headers schema ci filters with
    | error e => rw [hres] at h; exact absurd h (by simp)
    | ok resolved =>
      rw [hres] at h
      simp only [Except.ok.injEq] at h
      rw [← h]
      exact (List.pairwise_lt_range r.parsedRows).sublist (List.filter_sublist _)
  · intro r schema ci
    unfold apply_filters
    rw [show resolveFilters r.headers schema ci [] = Except.ok [] from rfl]
    simp only [Except.ok.injEq]
    exact List.filter_eq_self.mpr (fun a _ => rfl)
  · intro r schema ci
    unfold apply_filters
    rw [show resolveFilters r.headers schema ci [] = Except.ok [] from rfl]
    simp only [Except.ok.injEq]
    exact List.filter_eq_nil_iff.mpr (fun a _ => by simp)

/-- Witness for C7 at a concrete three-row table. -/
theorem c7_witness :
    (List.range 3).Sorted (· < ·) ∧
    apply_filters [] ⟨[['a']], [['x'], ['y'], ['z']], 1, 3, 3⟩ [] false false =
      Except.ok (List.range 3) ∧
    apply_filters [] ⟨[['a']], [['x'], ['y'], ['z']], 1, 3, 3⟩ [] false true =
      Except.ok [] :=
  ⟨c7_apply_filters.1 [] ⟨[['a']], [['x'], ['y'], ['z']], 1, 3, 3⟩ [] false false
      (List.range 3) (c7_apply_filters.2.1 _ [] false),
    c7_apply_filters.2.1 _ [] false,
    c7_apply_filters.2.2 _ [] false⟩

/-! ### C9: resolve_columns -/

theorem getlineSplit_ne_nil (fuel : ℕ) (s : Str) (hs : s ≠ []) :
    getlineSplit (fuel + 1) s =
      (let tok := s.takeWhile (fun x => decide (x ≠ ','))
       if tok.length = s.length then [tok]
       else tok :: getlineSplit fuel (s.drop (tok.length + 1))) := by
  obtain ⟨c, cs, hL⟩ := List.exists_cons_of_ne_nil hs
  subst hL
  rw [getlineSplit]

theorem getlineSplit_nil (fuel : ℕ) : getlineSplit fuel [] = [] := by
  cases fuel <;> rfl

theorem getlineSplit_congr :
    ∀ (k : ℕ) (s : Str) (f g : ℕ), s.length ≤ k → s.length ≤ f → s.length ≤ g →
      getlineSplit f s = getlineSplit g s := by
  intro k
  induction k with
  | zero =>
    intro s f g hk _ _
    have hs : s = [] := List.length_eq_zero.mp (Nat.le_zero.mp hk)
    subst hs
    rw [getlineSplit_nil, getlineSplit_nil]
  | succ k ih =>
    intro s f g hk hf hg
    by_cases hs : s = []
    · subst hs
      rw [getlineSplit_nil, getlineSplit_nil]
    · have hpos : 0 < s.length := List.length_pos.mpr hs
      cases f with
      | zero => omega
      | succ f =>
        cases g with
        | zero => omega
        | succ g =>
          rw [getlineSplit_ne_nil f s hs, getlineSplit_ne_nil g s hs]
          simp only
          by_cases hlen : (s.takeWhile (fun x => decide (x ≠ ','))).length = s.length
          · rw [if_pos hlen, if_pos hlen]
          · rw [if_neg hlen, if_neg hlen]
            have hr : (s.drop ((s.takeWhile (fun x => decide (x ≠ ','))).length + 1)).length <
                s.length := by
              rw [List.length_drop]
              omega
            rw [ih _ f g (by omega) (by omega) (by omega)]

theorem takeWhile_comma_append (a t : Str) (ha : ',' ∉ a) :
    (a ++ ',' :: t).takeWhile (fun x => decide (x ≠ ',')) = a := by
  induction a with
  | nil => simp
  | cons c cs ih =>
    have hc : c ≠ ',' := fun h => ha (by rw [h]; exact List.mem_cons_self _ _)
    have ha2 : ',' ∉ cs := fun hm => ha (List.mem_cons_of_mem _ hm)
    simp only [List.cons_append, List.takeWhile_cons]
    rw [if_pos (by simpa using hc), ih ha2]

theorem takeWhile_no_comma (a : Str) (ha : ',' ∉ a) :
    a.takeWhile (fun x => decide (x ≠ ',')) = a := by
  induction a with
  | nil => rfl
  | cons c cs ih =>
    have hc : c ≠ ',' := fun h => ha (by rw [h]; exact List.mem_cons_self _ _)
    have ha2 : ',' ∉ cs := fun hm => ha (List.mem_cons_of_mem _ hm)
    rw [List.takeWhile_cons, if_pos (by simpa using hc), ih ha2]

theorem getline_split_append (a t : Str) (ha : ',' ∉ a) :
    getline_split (a ++ ',' :: t) = a :: getline_split t := by
  unfold getline_split
  have hlen : (a ++ ',' :: t).length = a.length + t.length + 1 := by
    simp only [List.length_append, List.length_cons]
    omega
  rw [hlen, getlineSplit_ne_nil _ _ (by simp)]
  simp only
  rw [takeWhile_comma_append a t ha]
  rw [if_neg (by omega)]
  have hdrop : (a ++ ',' :: t).drop (a.length + 1) = t := by
    rw [show a ++ ',' :: t = (a ++ [',']) ++ t from by simp,
      show a.length + 1 = (a ++ [',']).length from by simp, List.drop_left]
  rw [hdrop, getlineSplit_congr t.length t (a.length + t.length + 1) (t.length + 1)
    le_rfl (by omega) (by omega)]

theorem getline_split_single (a : Str) (ha : ',' ∉ a) (hne : a ≠ []) :
    getline_split a = [a] := by
  unfold getline_split
  obtain ⟨c, cs, hL⟩ := List.exists_cons_of_ne_nil hne
  subst hL
  rw [getlineSplit_ne_nil _ _ (by simp)]
  simp only
  rw [takeWhile_no_comma _ ha, if_pos rfl]

theorem getlineSplit_tokens_spaces :
    ∀ (k fuel : ℕ) (s : Str), s.length ≤ k →
      (∀ c ∈ s, c = ',' ∨ c = ' ') →
      ∀ tok ∈ getlineSplit fuel s, ∀ c ∈ tok, c = ' ' := by
  intro k
  induction k with
  | zero =>
    intro fuel s hk _
    have hs : s = [] := List.length_eq_zero.mp (Nat.le_zero.mp hk)
    subst hs
    rw [getlineSplit_nil]
    intro tok htok
    exact absurd htok (by simp)
  | succ k ih =>
    intro fuel s hk hcs
    by_cases hs : s = []
    · subst hs
      rw [getlineSplit_nil]
      intro tok htok
      exact absurd htok (by simp)
    · have hpos : 0 < s.length := List.length_pos.mpr hs
      cases fuel with
      | zero =>
        intro tok htok
        exact absurd htok (by simp [getlineSplit])
      | succ fuel =>
        rw [getlineSplit_ne_nil fuel s hs]
        simp only
        have htokchars : ∀ c ∈ s.takeWhile (fun x => decide (x ≠ ',')), c = ' ' := by
          intro c hc
          have hp : (fun x => decide (x ≠ ',')) c = true :=
            List.mem_takeWhile_imp (p := fun x => decide (x ≠ ',')) hc
          simp only [decide_eq_true_eq] at hp
          have hp : decide (c ≠ ',') = true := by simpa using hp
          have hmem : c ∈ s := (List.takeWhile_prefix _).subset hc
          rcases hcs c hmem with h | h
          · rw [h] at hp; exact absurd hp (by decide)
          · exact h
        by_cases hlen : (s.takeWhile (fun x => decide (x ≠ ','))).length = s.length
        · rw [if_pos hlen]
          intro tok htok
          rw [List.mem_singleton] at htok
          subst htok
          exact htokchars
        · rw [if_neg hlen]
          intro tok htok
          rcases List.mem_cons.mp htok with h | h
          · subst h; exact htokchars
          · have hrl : (s.drop ((s.takeWhile (fun x => decide (x ≠ ','))).length + 1)).length
                ≤ k := by
              rw [List.length_drop]; omega
            exact ih fuel _ hrl
              (fun c hc => hcs c (List.mem_of_mem_drop hc)) tok h

theorem trimSpaces_all_spaces {t : Str} (h : ∀ c ∈ t, c = ' ') : trimSpaces t = [] := by
  unfold trimSpaces
  have h1 : t.dropWhile (fun c => decide (c = ' ')) = [] :=
    List.dropWhile_eq_nil_iff.mpr (fun x hx => by rw [h x hx]; decide)
  rw [h1]
  rfl

theorem resolveTokens_all_blank (headers : List Str) :
    ∀ (toks : List Str), (∀ tok ∈ toks, trimSpaces tok = []) →
      resolveTokens headers toks = Except.ok [] := by
  intro toks
  induction toks with
  | nil => intro _; rfl
  | cons tok rest ih =>
    intro h
    rw [resolveTokens]
    rw [if_pos (h tok (by simp))]
    exact ih (fun x hx => h x (by simp [hx]))

/-- C9: `resolve_columns` silently skips tokens that are empty after
trimming — for valid headers `a` and `b` (comma-free, space-trimmed,
non-empty), the expression `a,,b` resolves to exactly the indices of `a`
and `b` in that order — and an expression of only commas and spaces
raises NoColumnsSelected, not UnknownColumn. -/
theorem c9_resolve_columns :
    (∀ (r : ParseResult) (a b : Str) (ia ib : ℕ),
      ',' ∉ a → ',' ∉ b → trimSpaces a = a → trimSpaces b = b → a ≠ [] → b ≠ [] →
      (List.range r.headers.length).find?
        (fun i => unquote (r.headers.getD i []) = a) = some ia →
      (List.range r.headers.length).find?
        (fun i => unquote (r.headers.getD i []) = b) = some ib →
      resolve_columns (a ++ ',' :: ',' :: b) r = Except.ok [ia, ib]) ∧
    (∀ (s : Str) (r : ParseResult),
      (∀ c ∈ s, c = ',' ∨ c = ' ') →
      resolve_columns s r = Except.error QueryError.NoColumnsSelected) := by
  constructor
  · intro r a b ia ib hca hcb hta htb hna hnb hfa hfb
    have hsplit : getline_split (a ++ ',' :: ',' :: b) = [a, [], b] := by
      rw [getline_split_append a (',' :: b) hca,
        show (',' :: b) = [] ++ ',' :: b from rfl,
        getline_split_append [] b (by simp),
        getline_split_single b hcb hnb]
    unfold resolve_columns
    rw [hsplit]
    rw [resolveTokens]
    rw [hta, if_neg hna, hfa]
    rw [resolveTokens]
    rw [if_pos (show trimSpaces ([] : Str) = [] from rfl)]
    rw [resolveTokens]
    rw [htb, if_neg hnb, hfb]
    rfl
  · intro s r hcs
    unfold resolve_columns
    rw [resolveTokens_all_blank r.headers (getline_split s)
      (fun tok htok => trimSpaces_all_spaces
        (getlineSplit_tokens_spaces s.length (s.length + 1) s le_rfl hcs tok htok))]

/-- Witness for C9 over the headers `[a, b]`. -/
theorem c9_witness :
    resolve_columns (['a'] ++ ',' :: ',' :: ['b']) ⟨[['a'], ['b']], [], 2, 0, 0⟩ =
      Except.ok [0, 1] ∧
    resolve_columns [',', ' ', ','] ⟨[['a'], ['b']], [], 2, 0, 0⟩ =
      Except.error QueryError.NoColumnsSelected :=
  ⟨c9_resolve_columns.1 ⟨[['a'], ['b']], [], 2, 0, 0⟩ ['a'] ['b'] 0 1
      (by decide) (by decide) (by decide) (by decide) (by decide) (by decide)
      (by decide) (by decide),
    c9_resolve_columns.2 [',', ' ', ','] ⟨[['a'], ['b']], [], 2, 0, 0⟩ (by decide)⟩

theorem mul_sqrt_pos_iff {B x : ℚ} (hB : 0 ≤ B) (hx : 0 ≤ x) :
    (0 : ℝ) < (B : ℝ) * Real.sqrt (x : ℝ) ↔ (0 : ℚ) < B ^ 2 * x := by
  have hxR : (0 : ℝ) ≤ (x : ℝ) := by exact_mod_cast hx
  have hBR : (0 : ℝ) ≤ (B : ℝ) := by exact_mod_cast hB
  constructor
  · intro h
    rcases mul_pos_iff.mp h with ⟨h1, h2⟩ | ⟨h1, h2⟩
    · have hxpos : (0 : ℝ) < (x : ℝ) := Real.sqrt_pos.mp h2
      have : (0 : ℝ) < (B : ℝ) ^ 2 * (x : ℝ) := mul_pos (pow_pos h1 2) hxpos
      exact_mod_cast this
    · linarith
  · intro h
    have hR : (0 : ℝ) < (B : ℝ) ^ 2 * (x : ℝ) := by exact_mod_cast h
    have hBne : (B : ℝ) ≠ 0 := by
      intro h0
      rw [h0] at hR
      simp at hR
    have hBpos : (0 : ℝ) < (B : ℝ) := lt_of_le_of_ne hBR (Ne.symm hBne)
    have hxpos : (0 : ℝ) < (x : ℝ) := by
      by_contra hc
      push_neg at hc
      have : (x : ℝ) = 0 := le_antisymm hc hxR
      rw [this] at hR
      simp at hR
    exact mul_pos hBpos (Real.sqrt_pos.mpr hxpos)

theorem posAuxB_iff (t B x : ℚ) (hB : 0 ≤ B) (hx : 0 ≤ x) :
    posAuxB t B x = true ↔
      (0 : ℝ) < (t : ℝ) + (B : ℝ) * Real.sqrt (x : ℝ) := by
  have hxR : (0 : ℝ) ≤ (x : ℝ) := by exact_mod_cast hx
  have hBR : (0 : ℝ) ≤ (B : ℝ) := by exact_mod_cast hB
  have hsnn : (0 : ℝ) ≤ Real.sqrt (x : ℝ) := Real.sqrt_nonneg _
  have hBs : (0 : ℝ) ≤ (B : ℝ) * Real.sqrt (x : ℝ) := mul_nonneg hBR hsnn
  have hsq : Real.sqrt (x : ℝ) ^ 2 = (x : ℝ) := Real.sq_sqrt hxR
  unfold posAuxB
  by_cases ht : (0 : ℚ) ≤ t
  · rw [if_pos ht]
    simp only [Bool.or_eq_true, decide_eq_true_eq]
    have htR : (0 : ℝ) ≤ (t : ℝ) := by exact_mod_cast ht
    constructor
    · rintro (h | h)
      · have : (0 : ℝ) < (t : ℝ) := by exact_mod_cast h
        linarith
      · have := (mul_sqrt_pos_iff hB hx).mpr h
        linarith
    · intro h
      by_contra hcon
      push_neg at hcon
      obtain ⟨h1, h2⟩ := hcon
      have ht0 : t = 0 := le_antisymm h1 ht
      have hBx0 : ¬(0 : ℝ) < (B : ℝ) * Real.sqrt (x : ℝ) := by
        intro hh
        have := (mul_sqrt_pos_iff hB hx).mp hh
        linarith
      have : (B : ℝ) * Real.sqrt (x : ℝ) = 0 := le_antisymm (not_lt.mp hBx0) hBs
      rw [ht0] at h
      push_cast at h
      linarith
  · rw [if_neg ht]
    simp only [decide_eq_true_eq]
    push_neg at ht
    have htR : (t : ℝ) < 0 := by exact_mod_cast ht
    have hBsq : ((B : ℝ) * Real.sqrt (x : ℝ)) ^ 2 = (B : ℝ) ^ 2 * (x : ℝ) := by
      rw [mul_pow, hsq]
    constructor
    · intro h
      have hR : ((t : ℝ)) ^ 2 < (B : ℝ) ^ 2 * (x : ℝ) := by exact_mod_cast h
      have h2 : (-(t : ℝ)) ^ 2 < ((B : ℝ) * Real.sqrt (x : ℝ)) ^ 2 := by
        rw [hBsq]
        calc (-(t : ℝ)) ^ 2 = (t : ℝ) ^ 2 := by ring
        _ < _ := hR
      have := lt_of_pow_lt_pow_left 2 hBs h2
      linarith
    · intro h
      have hlt : -(t : ℝ) < (B : ℝ) * Real.sqrt (x : ℝ) := by linarith
      have hnn : (0 : ℝ) ≤ -(t : ℝ) := by linarith
      have h2 := pow_lt_pow_left hlt hnn (by norm_num : (2 : ℕ) ≠ 0)
      rw [hBsq] at h2
      have : ((t : ℝ)) ^ 2 < (B : ℝ) ^ 2 * (x : ℝ) := by
        calc ((t : ℝ)) ^ 2 = (-(t : ℝ)) ^ 2 := by ring
        _ < _ := h2
      exact_mod_cast this

theorem gtAux_iff (t B x D y : ℚ) (hB : 0 ≤ B) (hx : 0 ≤ x) (hD : 0 ≤ D) (hy : 0 ≤ y) :
    gtAux t B x D y = true ↔
      (D : ℝ) * Real.sqrt (y : ℝ) < (t : ℝ) + (B : ℝ) * Real.sqrt (x : ℝ) := by
  have hxR : (0 : ℝ) ≤ (x : ℝ) := by exact_mod_cast hx
  have hyR : (0 : ℝ) ≤ (y : ℝ) := by exact_mod_cast hy
  have hDR : (0 : ℝ) ≤ (D : ℝ) := by exact_mod_cast hD
  have hsqx : Real.sqrt (x : ℝ) ^ 2 = (x : ℝ) := Real.sq_sqrt hxR
  have hsqy : Real.sqrt (y : ℝ) ^ 2 = (y : ℝ) := Real.sq_sqrt hyR
  have hDs : (0 : ℝ) ≤ (D : ℝ) * Real.sqrt (y : ℝ) :=
    mul_nonneg hDR (Real.sqrt_nonneg _)
  unfold gtAux
  by_cases hpos : posAuxB t B x = true
  · rw [if_pos hpos]
    have hlhs : (0 : ℝ) < (t : ℝ) + (B : ℝ) * Real.sqrt (x : ℝ) :=
      (posAuxB_iff t B x hB hx).mp hpos
    have hsquare : (D : ℝ) * Real.sqrt (y : ℝ) < (t : ℝ) + (B : ℝ) * Real.sqrt (x : ℝ) ↔
        (0 : ℝ) < ((t ^ 2 + B ^ 2 * x - D ^ 2 * y : ℚ) : ℝ) +
          ((2 * t * B : ℚ) : ℝ) * Real.sqrt (x : ℝ) := by
      constructor
      · intro h
        have h2 := pow_lt_pow_left h hDs (by norm_num : (2 : ℕ) ≠ 0)
        have hexp : ((D : ℝ) * Real.sqrt (y : ℝ)) ^ 2 = (D : ℝ) ^ 2 * (y : ℝ) := by
          rw [mul_pow, hsqy]
        have hexp2 : ((t : ℝ) + (B : ℝ) * Real.sqrt (x : ℝ)) ^ 2 =
            (t : ℝ) ^ 2 + (B : ℝ) ^ 2 * (x : ℝ) +
              2 * (t : ℝ) * (B : ℝ) * Real.sqrt (x : ℝ) := by
          have : ((t : ℝ) + (B : ℝ) * Real.sqrt (x : ℝ)) ^ 2 =
              (t : ℝ) ^ 2 + (B : ℝ) ^ 2 * Real.sqrt (x : ℝ) ^ 2 +
                2 * (t : ℝ) * (B : ℝ) * Real.sqrt (x : ℝ) := by ring
          rw [this, hsqx]
        rw [hexp, hexp2] at h2
        push_cast
        linarith
      · intro h
        push_cast at h
        have h2 : ((D : ℝ) * Real.sqrt (y : ℝ)) ^ 2 <
            ((t : ℝ) + (B : ℝ) * Real.sqrt (x : ℝ)) ^ 2 := by
          have hexp : ((D : ℝ) * Real.sqrt (y : ℝ)) ^ 2 = (D : ℝ) ^ 2 * (y : ℝ) := by
            rw [mul_pow, hsqy]
          have hexp2 : ((t : ℝ) + (B : ℝ) * Real.sqrt (x : ℝ)) ^ 2 =
              (t : ℝ) ^ 2 + (B : ℝ) ^ 2 * (x : ℝ) +
                2 * (t : ℝ) * (B : ℝ) * Real.sqrt (x : ℝ) := by
            have : ((t : ℝ) + (B : ℝ) * Real.sqrt (x : ℝ)) ^ 2 =
                (t : ℝ) ^ 2 + (B : ℝ) ^ 2 * Real.sqrt (x : ℝ) ^ 2 +
                  2 * (t : ℝ) * (B : ℝ) * Real.sqrt (x : ℝ) := by ring
            rw [this, hsqx]
          rw [hexp, hexp2]
          linarith
        exact lt_of_pow_lt_pow_left 2 (le_of_lt hlhs) h2
    rw [hsquare]
    by_cases hL : (0 : ℚ) ≤ 2 * t * B
    · rw [if_pos hL]
      exact posAuxB_iff (t ^ 2 + B ^ 2 * x - D ^ 2 * y) (2 * t * B) x hL hx
    · rw [if_neg hL]
      push_neg at hL
      have hLR : ((2 * t * B : ℚ) : ℝ) < 0 := by exact_mod_cast hL
      simp only [Bool.and_eq_true, decide_eq_true_eq]
      have hnLs : (0 : ℝ) ≤ (-(((2 * t * B : ℚ)) : ℝ)) * Real.sqrt (x : ℝ) :=
        mul_nonneg (by linarith) (Real.sqrt_nonneg _)
      constructor
      · rintro ⟨hK, hKsq⟩
        have hKR : (0 : ℝ) < ((t ^ 2 + B ^ 2 * x - D ^ 2 * y : ℚ) : ℝ) := by
          exact_mod_cast hK
        have hKsqR : (((2 * t * B : ℚ)) : ℝ) ^ 2 * (x : ℝ) <
            ((t ^ 2 + B ^ 2 * x - D ^ 2 * y : ℚ) : ℝ) ^ 2 := by
          exact_mod_cast hKsq
        have hprod : ((-(((2 * t * B : ℚ)) : ℝ)) * Real.sqrt (x : ℝ)) ^ 2 =
            (((2 * t * B : ℚ)) : ℝ) ^ 2 * (x : ℝ) := by
          rw [mul_pow, hsqx]
          ring
        have h2 : ((-(((2 * t * B : ℚ)) : ℝ)) * Real.sqrt (x : ℝ)) ^ 2 <
            ((t ^ 2 + B ^ 2 * x - D ^ 2 * y : ℚ) : ℝ) ^ 2 := by
          rw [hprod]; exact hKsqR
        have := lt_of_pow_lt_pow_left 2 (le_of_lt hKR) h2
        linarith
      · intro h
        have hKR : (0 : ℝ) < ((t ^ 2 + B ^ 2 * x - D ^ 2 * y : ℚ) : ℝ) := by
          nlinarith [Real.sqrt_nonneg (x : ℝ), hnLs]
        refine ⟨by exact_mod_cast hKR, ?_⟩
        have hlt : (-(((2 * t * B : ℚ)) : ℝ)) * Real.sqrt (x : ℝ) <
            ((t ^ 2 + B ^ 2 * x - D ^ 2 * y : ℚ) : ℝ) := by linarith
        have h2 := pow_lt_pow_left hlt hnLs (by norm_num : (2 : ℕ) ≠ 0)
        have hprod : ((-(((2 * t * B : ℚ)) : ℝ)) * Real.sqrt (x : ℝ)) ^ 2 =
            (((2 * t * B : ℚ)) : ℝ) ^ 2 * (x : ℝ) := by
          rw [mul_pow, hsqx]
          ring
        rw [hprod] at h2
        exact_mod_cast h2
  · rw [if_neg hpos]
    simp only [Bool.false_eq_true, false_iff, not_lt]
    have := (posAuxB_iff t B x hB hx).not.mp hpos
    push_neg at this
    linarith

theorem sGTb_iff (m1 v1 m2 v2 : ℚ) (h1 : 0 ≤ m1) (h2 : 0 ≤ m2)
    (hv1 : 0 ≤ v1) (hv2 : 0 ≤ v2) :
    sGTb m1 v1 m2 v2 = true ↔ scoreR m2 v2 < scoreR m1 v1 := by
  unfold sGTb scoreR
  have hd1 : (0 : ℝ) < 1 + Real.sqrt (v1 : ℝ) := by
    have := Real.sqrt_nonneg ((v1 : ℚ) : ℝ)
    linarith
  have hd2 : (0 : ℝ) < 1 + Real.sqrt (v2 : ℝ) := by
    have := Real.sqrt_nonneg ((v2 : ℚ) : ℝ)
    linarith
  rw [div_lt_div_iff hd2 hd1]
  rw [gtAux_iff (m1 - m2) m1 v2 m2 v1 h1 hv2 h2 hv1]
  push_cast
  constructor <;> intro h <;> nlinarith [Real.sqrt_nonneg ((v1 : ℚ) : ℝ),
    Real.sqrt_nonneg ((v2 : ℚ) : ℝ)]

theorem meanQ_nonneg (lines : List Str) (c : Char) : 0 ≤ meanQ lines c := by
  unfold meanQ
  apply div_nonneg
  · apply List.sum_nonneg
    intro x hx
    obtain ⟨l, _, hl⟩ := List.mem_map.mp hx
    rw [← hl]
    positivity
  · positivity

theorem varQ_nonneg (lines : List Str) (c : Char) : 0 ≤ varQ lines c := by
  unfold varQ
  apply div_nonneg
  · apply List.sum_nonneg
    intro x hx
    obtain ⟨l, _, hl⟩ := List.mem_map.mp hx
    rw [← hl]
    positivity
  · positivity

theorem detectStep_inv {lines : List Str} {pre : List Char}
    {st : Option (Char × ℚ × ℚ)} (c : Char) (h : DetectInv lines pre st) :
    DetectInv lines (pre ++ [c]) (detectStep lines st c) := by
  unfold detectStep
  by_cases hq : meanQ lines c < 2
  · rw [if_pos hq]
    have hnq : ¬qualifies lines c := fun hqq => hqq hq
    cases st with
    | none =>
      intro c2 hc2
      rcases List.mem_append.mp hc2 with h2 | h2
      · exact h c2 h2
      · rw [List.mem_singleton.mp h2]
        exact hnq
    | some p =>
      obtain ⟨b, bm, bv⟩ := p
      obtain ⟨e1, e2, e3, ⟨l1, l2, hsp, hstr⟩, hle⟩ := h
      refine ⟨e1, e2, e3, ⟨l1, l2 ++ [c], by rw [hsp]; simp, hstr⟩, ?_⟩
      intro c2 hc2
      rcases List.mem_append.mp hc2 with h2 | h2
      · exact hle c2 h2
      · rw [List.mem_singleton.mp h2]
        exact fun hqq => absurd hqq hnq
  · rw [if_neg hq]
    have hqc : qualifies lines c := hq
    cases st with
    | none =>
      refine ⟨rfl, rfl, hqc, ⟨pre, [], rfl, ?_⟩, ?_⟩
      · intro c2 hc2 hq2
        exact absurd hq2 (h c2 hc2)
      · intro c2 hc2 hq2
        rcases List.mem_append.mp hc2 with h2 | h2
        · exact absurd hq2 (h c2 h2)
        · rw [List.mem_singleton.mp h2]
    | some p =>
      obtain ⟨b, bm, bv⟩ := p
      obtain ⟨e1, e2, e3, ⟨l1, l2, hsp, hstr⟩, hle⟩ := h
      show DetectInv lines (pre ++ [c])
        (if sGTb (meanQ lines c) (varQ lines c) bm bv then
          some (c, meanQ lines c, varQ lines c) else some (b, bm, bv))
      by_cases hgt : sGTb (meanQ lines c) (varQ lines c) bm bv = true
      · rw [if_pos hgt]
        have hlt : scoreOf lines b < scoreOf lines c := by
          have := (sGTb_iff (meanQ lines c) (varQ lines c) bm bv
            (meanQ_nonneg lines c)
            (by rw [e1]; exact meanQ_nonneg lines b)
            (varQ_nonneg lines c)
            (by rw [e2]; exact varQ_nonneg lines b)).mp hgt
          rw [e1, e2] at this
          exact this
        refine ⟨rfl, rfl, hqc, ⟨pre, [], rfl, ?_⟩, ?_⟩
        · intro c2 hc2 hq2
          exact lt_of_le_of_lt (hle c2 hc2 hq2) hlt
        · intro c2 hc2 hq2
          rcases List.mem_append.mp hc2 with h2 | h2
          · exact le_of_lt (lt_of_le_of_lt (hle c2 h2 hq2) hlt)
          · rw [List.mem_singleton.mp h2]
      · rw [if_neg hgt]
        have hlec : scoreOf lines c ≤ scoreOf lines b := by
          have := (sGTb_iff (meanQ lines c) (varQ lines c) bm bv
            (meanQ_nonneg lines c)
            (by rw [e1]; exact meanQ_nonneg lines b)
            (varQ_nonneg lines c)
            (by rw [e2]; exact varQ_nonneg lines b)).not.mp hgt
          rw [e1, e2] at this
          exact not_lt.mp this
        refine ⟨e1, e2, e3, ⟨l1, l2 ++ [c], by rw [hsp]; simp, hstr⟩, ?_⟩
        intro c2 hc2
        rcases List.mem_append.mp hc2 with h2 | h2
        · exact hle c2 h2
        · rw [List.mem_singleton.mp h2]
          intro _
          exact hlec

theorem detect_foldl_inv (lines : List Str) :
    ∀ (cs pre : List Char) (st : Option (Char × ℚ × ℚ)),
      DetectInv lines pre st →
      DetectInv lines (pre ++ cs) (cs.foldl (detectStep lines) st) := by
  intro cs
  induction cs with
  | nil =>
    intro pre st h
    simpa using h
  | cons c cs ih =>
    intro pre st h
    rw [List.foldl_cons, show pre ++ c :: cs = (pre ++ [c]) ++ cs from by simp]
    exact ih (pre ++ [c]) _ (detectStep_inv c h)

theorem sampledLines_nil (sb : ℕ) : sampledLines [] sb = [] := by
  cases sb <;> rfl

theorem sampleLines_chars :
    ∀ (k fuel budget : ℕ) (data : Str), data.length ≤ k →
      ∀ l ∈ sampleLines fuel budget data, ∀ ch ∈ l, ch ∈ data := by
  intro k
  induction k with
  | zero =>
    intro fuel budget data hk
    have hd : data = [] := List.length_eq_zero.mp (Nat.le_zero.mp hk)
    subst hd
    intro l hl
    cases fuel with
    | zero => exact absurd hl (by simp [sampleLines])
    | succ fuel => exact absurd hl (by simp [sampleLines])
  | succ k ih =>
    intro fuel budget data hk
    by_cases hd : data = []
    · subst hd
      intro l hl
      cases fuel with
      | zero => exact absurd hl (by simp [sampleLines])
      | succ fuel => exact absurd hl (by simp [sampleLines])
    · obtain ⟨c, cs, hL⟩ := List.exists_cons_of_ne_nil hd
      subst hL
      cases fuel with
      | zero =>
        intro l hl
        exact absurd hl (by simp [sampleLines])
      | succ fuel =>
        cases budget with
        | zero =>
          intro l hl
          exact absurd hl (by simp [sampleLines])
        | succ budget =>
          rw [sampleLines]
          set e := slowLineEnd (c :: cs) false with he
          set line := (c :: cs).take e with hline
          set line2 := if line.getLast? = some '\r' then line.dropLast else line
            with hline2
          set rest := (c :: cs).drop (e + 1) with hrest
          have hline2sub : ∀ ch ∈ line2, ch ∈ c :: cs := by
            intro ch hch
            rw [hline2] at hch
            have hch2 : ch ∈ line := by
              by_cases hcr : line.getLast? = some '\r'
              · rw [if_pos hcr] at hch
                exact (List.dropLast_sublist line).subset hch
              · rwa [if_neg hcr] at hch
            rw [hline] at hch2
            exact List.mem_of_mem_take hch2
          have hrestlen : rest.length ≤ k := by
            rw [hrest, List.length_drop]
            have : (c :: cs).length = cs.length + 1 := rfl
            omega
          have hrestsub : ∀ ch ∈ rest, ch ∈ c :: cs := by
            intro ch hch
            rw [hrest] at hch
            exact List.mem_of_mem_drop hch
          by_cases hb : line2 = []
          · rw [if_pos hb]
            intro l hl ch hch
            exact hrestsub ch (ih fuel (budget + 1) rest hrestlen l hl ch hch)
          · rw [if_neg hb]
            intro l hl ch hch
            rcases List.mem_cons.mp hl with h2 | h2
            · exact hline2sub ch (h2 ▸ hch)
            · exact hrestsub ch (ih fuel budget rest hrestlen l h2 ch hch)

theorem countDelimsUnquoted_zero {c : Char} :
    ∀ (l : Str) (b : Bool), c ∉ l → countDelimsUnquoted c l b = 0 := by
  intro l
  induction l with
  | nil => intro b _; rfl
  | cons d ds ih =>
    intro b h
    have hd : d ≠ c := fun hh => h (by rw [hh]; exact List.mem_cons_self _ _)
    have h2 : c ∉ ds := fun hh => h (List.mem_cons_of_mem _ hh)
    rw [countDelimsUnquoted]
    by_cases hq : d = '"'
    · rw [if_pos hq]
      exact ih _ h2
    · rw [if_neg hq, if_neg (by
        intro hcon
        exact hd hcon.2), ih _ h2]

theorem meanQ_one {lines : List Str} {c : Char} (hne : lines ≠ [])
    (h : ∀ l ∈ lines, count_fields l c = 1) : meanQ lines c = 1 := by
  unfold meanQ
  have hmap : lines.map (fun l => (count_fields l c : ℚ)) =
      lines.map (fun _ => (1 : ℚ)) := by
    apply List.map_congr_left
    intro l hl
    rw [h l hl]
    norm_num
  rw [hmap, List.map_const', List.sum_replicate, nsmul_eq_mul, mul_one]
  have hlen : (lines.length : ℚ) ≠ 0 := by
    have : 0 < lines.length := List.length_pos.mpr hne
    exact_mod_cast Nat.pos_iff_ne_zero.mp this
  field_simp

theorem meanQ_ge_two {lines : List Str} {d : Char} (hne : lines ≠ [])
    (h : ∀ l ∈ lines, 2 ≤ count_fields l d) : (2 : ℚ) ≤ meanQ lines d := by
  unfold meanQ
  have hlen : (0 : ℚ) < (lines.length : ℚ) := by
    have : 0 < lines.length := List.length_pos.mpr hne
    exact_mod_cast this
  rw [le_div_iff hlen]
  have : lines.length • (2 : ℚ) ≤ (lines.map (fun l => (count_fields l d : ℚ))).sum := by
    have hlenmap : lines.length = (lines.map (fun l => (count_fields l d : ℚ))).length := by
      simp
    rw [hlenmap]
    apply List.card_nsmul_le_sum
    intro x hx
    obtain ⟨l, hl, hval⟩ := List.mem_map.mp hx
    rw [← hval]
    exact_mod_cast h l hl
  rw [nsmul_eq_mul] at this
  linarith

theorem getElem?_append_middle {α : Type} :
    ∀ (l1 : List α) (b : α) (l2 : List α), (l1 ++ b :: l2)[l1.length]? = some b := by
  intro l1 b l2
  induction l1 with
  | nil => simp
  | cons c cs ih => simpa using ih

/-- The zeta-reduced form of `detect_delimiter`, for rewriting. -/
theorem detect_delimiter_eq (data : Str) (sb : ℕ) :
    detect_delimiter data sb =
      (if data = [] then ','
       else if sampledLines data sb = [] then ','
       else
         match candList.foldl (detectStep (sampledLines data sb)) none with
         | none => ','
         | some (c, _, _) => c) := rfl

/-- C6: a file whose only candidate byte is `d`, with at least 2 fields on
every sampled line (and at least one sampled line), is detected as `d`;
empty input, and inputs where no candidate reaches a mean field count of
2, yield the comma default. -/
theorem c6_detect_delimiter :
    (∀ sb : ℕ, detect_delimiter [] sb = ',') ∧
    (∀ (data : Str) (sb : ℕ),
      (∀ c ∈ candList, meanQ (sampledLines data sb) c < 2) →
      detect_delimiter data sb = ',') ∧
    (∀ (data : Str) (sb : ℕ) (d : Char), d ∈ candList →
      sampledLines data sb ≠ [] →
      (∀ l ∈ sampledLines data sb, 2 ≤ count_fields l d) →
      (∀ c ∈ candList, c ≠ d → c ∉ data) →
      detect_delimiter data sb = d) := by
  refine ⟨?_, ?_, ?_⟩
  · intro sb
    rw [detect_delimiter_eq, if_pos rfl]
  · intro data sb hall
    rw [detect_delimiter_eq]
    by_cases hd : data = []
    · rw [if_pos hd]
    rw [if_neg hd]
    by_cases hl : sampledLines data sb = []
    · rw [if_pos hl]
    rw [if_neg hl]
    have hinv := detect_foldl_inv (sampledLines data sb) candList [] none
      (fun c hc => absurd hc (List.not_mem_nil c))
    rw [List.nil_append] at hinv
    cases hfold : candList.foldl (detectStep (sampledLines data sb)) none with
    | none => rfl
    | some p =>
      obtain ⟨b, bm, bv⟩ := p
      rw [hfold] at hinv
      obtain ⟨_, _, e3, ⟨l1, l2, hsp, _⟩, _⟩ := hinv
      have hbmem : b ∈ candList := by
        rw [hsp]
        exact List.mem_append_right _ (List.mem_cons_self _ _)
      exact absurd (hall b hbmem) e3
  · intro data sb d hd hne hcount hothers
    have hdata : data ≠ [] := by
      intro h
      rw [h, sampledLines_nil] at hne
      exact hne rfl
    rw [detect_delimiter_eq, if_neg hdata, if_neg hne]
    have hqd : qualifies (sampledLines data sb) d :=
      fun hlt => absurd hlt (not_lt.mpr (meanQ_ge_two hne hcount))
    have hnq : ∀ c ∈ candList, c ≠ d → ¬qualifies (sampledLines data sb) c := by
      intro c hc hcd
      have hc1 : ∀ l ∈ sampledLines data sb, count_fields l c = 1 := by
        intro l hl
        have hnotin : c ∉ l := by
          intro hmem
          exact hothers c hc hcd
            (sampleLines_chars data.length (data.length + 1) sb data le_rfl l hl c hmem)
        rw [count_fields, countDelimsUnquoted_zero l false hnotin]
      have hmean := meanQ_one hne hc1
      intro hq
      exact hq (by rw [hmean]; norm_num)
    have hinv := detect_foldl_inv (sampledLines data sb) candList [] none
      (fun c hc => absurd hc (List.not_mem_nil c))
    rw [List.nil_append] at hinv
    cases hfold : candList.foldl (detectStep (sampledLines data sb)) none with
    | none =>
      rw [hfold] at hinv
      exact absurd hqd (hinv d hd)
    | some p =>
      obtain ⟨b, bm, bv⟩ := p
      rw [hfold] at hinv
      obtain ⟨_, _, e3, ⟨l1, l2, hsp, _⟩, _⟩ := hinv
      have hbmem : b ∈ candList := by
        rw [hsp]
        exact List.mem_append_right _ (List.mem_cons_self _ _)
      show b = d
      by_contra hbd
      exact hnq b hbmem hbd e3

/-- Witness for C6: a semicolon file is detected as `;`, and the empty
input yields a comma. -/
theorem c6_witness :
    detect_delimiter ['a', ';', 'b', '\n', 'c', ';', 'd', '\n'] 20 = ';' ∧
    detect_delimiter [] 20 = ',' :=
  ⟨c6_detect_delimiter.2.2 ['a', ';', 'b', '\n', 'c', ';', 'd', '\n'] 20 ';'
      (by decide) (by decide) (by decide) (by decide),
    c6_detect_delimiter.1 20⟩

/-- C10: when the highest score is attained by several qualifying
candidates, the one earliest in the fixed order `,`, tab, `|`, `;` is
returned, because a later candidate replaces the best only on a strictly
greater score. Index `k` names the earliest candidate attaining the
maximal score over the qualifiers. -/
theorem c10_tie_earliest (data : Str) (sb k : ℕ) (hk : k < candList.length)
    (hne : sampledLines data sb ≠ [])
    (hq : qualifies (sampledLines data sb) (candList.get ⟨k, hk⟩))
    (hmax : ∀ c ∈ candList, qualifies (sampledLines data sb) c →
      scoreOf (sampledLines data sb) c ≤
        scoreOf (sampledLines data sb) (candList.get ⟨k, hk⟩))
    (hstrict : ∀ c ∈ candList.take k, qualifies (sampledLines data sb) c →
      scoreOf (sampledLines data sb) c <
        scoreOf (sampledLines data sb) (candList.get ⟨k, hk⟩)) :
    detect_delimiter data sb = candList.get ⟨k, hk⟩ := by
  have hdata : data ≠ [] := by
    intro h
    rw [h, sampledLines_nil] at hne
    exact hne rfl
  have hckmem : candList.get ⟨k, hk⟩ ∈ candList := List.get_mem _ _ _
  have hckget : candList[k]? = some (candList.get ⟨k, hk⟩) := by
    rw [List.getElem?_eq_getElem hk]
    simp
  rw [detect_delimiter_eq, if_neg hdata, if_neg hne]
  have hinv := detect_foldl_inv (sampledLines data sb) candList [] none
    (fun c hc => absurd hc (List.not_mem_nil c))
  rw [List.nil_append] at hinv
  cases hfold : candList.foldl (detectStep (sampledLines data sb)) none with
  | none =>
    rw [hfold] at hinv
    exact absurd hq (hinv _ hckmem)
  | some p =>
    obtain ⟨b, bm, bv⟩ := p
    rw [hfold] at hinv
    obtain ⟨_, _, e3, ⟨l1, l2, hsp, hstr⟩, hle⟩ := hinv
    have hbmem : b ∈ candList := by
      rw [hsp]
      exact List.mem_append_right _ (List.mem_cons_self _ _)
    have heq : scoreOf (sampledLines data sb) b =
        scoreOf (sampledLines data sb) (candList.get ⟨k, hk⟩) :=
      le_antisymm (hmax b hbmem e3) (hle _ hckmem hq)
    have hgetb : candList[l1.length]? = some b := by
      rw [hsp]
      exact getElem?_append_middle l1 b l2
    show b = candList.get ⟨k, hk⟩
    rcases lt_trichotomy l1.length k with hlt | heqi | hgt
    · -- b would sit strictly before the earliest maximizer yet tie it
      exfalso
      have hbtake : b ∈ candList.take k := by
        have h1 : (candList.take k)[l1.length]? = some b := by
          rw [List.getElem?_take, if_pos hlt]
          exact hgetb
        exact List.getElem?_mem h1
      have := hstrict b hbtake e3
      rw [heq] at this
      exact lt_irrefl _ this
    · rw [heqi] at hgetb
      rw [hgetb] at hckget
      exact (Option.some.injEq _ _).mp hckget
    · -- the earliest maximizer would sit strictly before b yet tie it
      exfalso
      have hckl1 : candList.get ⟨k, hk⟩ ∈ l1 := by
        have h1 : l1[k]? = some (candList.get ⟨k, hk⟩) := by
          have h2 : (l1 ++ b :: l2)[k]? = l1[k]? := by
            rw [List.getElem?_append, if_pos hgt]
          rw [← h2, ← hsp]
          exact hckget
        exact List.getElem?_mem h1
      have := hstr _ hckl1 hq
      rw [heq] at this
      exact lt_irrefl _ this

theorem meanQ_pair (l1 l2 : Str) (c : Char) :
    meanQ [l1, l2] c = ((count_fields l1 c : ℚ) + (count_fields l2 c : ℚ)) / 2 := by
  unfold meanQ
  simp

theorem varQ_pair (l1 l2 : Str) (c : Char) :
    varQ [l1, l2] c = (((count_fields l1 c : ℚ) - meanQ [l1, l2] c) ^ 2 +
      ((count_fields l2 c : ℚ) - meanQ [l1, l2] c) ^ 2) / 2 := by
  unfold varQ
  simp

/-- Witness for C10: with lines `x,y|z` and `u,v|w` both comma and pipe
qualify with identical statistics (mean 2, variance 0); the comma, first
in candidate order, is returned. -/
theorem c10_witness :
    detect_delimiter ['x', ',', 'y', '|', 'z', '\n', 'u', ',', 'v', '|', 'w', '\n']
      20 = ',' := by
  have hlines : sampledLines
      ['x', ',', 'y', '|', 'z', '\n', 'u', ',', 'v', '|', 'w', '\n'] 20 =
      [['x', ',', 'y', '|', 'z'], ['u', ',', 'v', '|', 'w']] := by decide
  have hmean : ∀ c : Char, meanQ (sampledLines
      ['x', ',', 'y', '|', 'z', '\n', 'u', ',', 'v', '|', 'w', '\n'] 20) c =
      ((count_fields ['x', ',', 'y', '|', 'z'] c : ℚ) +
        (count_fields ['u', ',', 'v', '|', 'w'] c : ℚ)) / 2 := by
    intro c
    rw [hlines, meanQ_pair]
  have hm1 : meanQ (sampledLines
      ['x', ',', 'y', '|', 'z', '\n', 'u', ',', 'v', '|', 'w', '\n'] 20) ',' = 2 := by
    rw [hmean ',', show count_fields ['x', ',', 'y', '|', 'z'] ',' = 2 from by decide,
      show count_fields ['u', ',', 'v', '|', 'w'] ',' = 2 from by decide]
    norm_num
  have hm2 : meanQ (sampledLines
      ['x', ',', 'y', '|', 'z', '\n', 'u', ',', 'v', '|', 'w', '\n'] 20) '|' = 2 := by
    rw [hmean '|', show count_fields ['x', ',', 'y', '|', 'z'] '|' = 2 from by decide,
      show count_fields ['u', ',', 'v', '|', 'w'] '|' = 2 from by decide]
    norm_num
  have hvar : ∀ c : Char,
      meanQ (sampledLines
        ['x', ',', 'y', '|', 'z', '\n', 'u', ',', 'v', '|', 'w', '\n'] 20) c = 2 →
      count_fields ['x', ',', 'y', '|', 'z'] c = 2 →
      count_fields ['u', ',', 'v', '|', 'w'] c = 2 →
      varQ (sampledLines
        ['x', ',', 'y', '|', 'z', '\n', 'u', ',', 'v', '|', 'w', '\n'] 20) c = 0 := by
    intro c hm hc1 hc2
    rw [hlines] at hm ⊢
    rw [varQ_pair, hm, hc1, hc2]
    norm_num
  have hv1 := hvar ',' hm1 (by decide) (by decide)
  have hv2 := hvar '|' hm2 (by decide) (by decide)
  have hm3 : meanQ (sampledLines
      ['x', ',', 'y', '|', 'z', '\n', 'u', ',', 'v', '|', 'w', '\n'] 20) '\t' = 1 := by
    rw [hmean '\t', show count_fields ['x', ',', 'y', '|', 'z'] '\t' = 1 from by decide,
      show count_fields ['u', ',', 'v', '|', 'w'] '\t' = 1 from by decide]
    norm_num
  have hm4 : meanQ (sampledLines
      ['x', ',', 'y', '|', 'z', '\n', 'u', ',', 'v', '|', 'w', '\n'] 20) ';' = 1 := by
    rw [hmean ';', show count_fields ['x', ',', 'y', '|', 'z'] ';' = 1 from by decide,
      show count_fields ['u', ',', 'v', '|', 'w'] ';' = 1 from by decide]
    norm_num
  have hcomma : (candList.get ⟨0, by decide⟩) = ',' := rfl
  have h := c10_tie_earliest
    ['x', ',', 'y', '|', 'z', '\n', 'u', ',', 'v', '|', 'w', '\n'] 20 0
    (by decide) (by rw [hlines]; simp) ?_ ?_ ?_
  · rw [hcomma] at h
    exact h
  · rw [hcomma]
    intro hlt
    rw [hm1] at hlt
    norm_num at hlt
  · intro c hc hqc
    rw [hcomma]
    have hcl : c = ',' ∨ c = '\t' ∨ c = '|' ∨ c = ';' := by
      simpa [candList] using hc
    rcases hcl with rfl | rfl | rfl | rfl
    · exact le_refl _
    · exact absurd (by rw [hm3]; norm_num) hqc
    · unfold scoreOf
      rw [hm1, hm2, hv1, hv2]
    · exact absurd (by rw [hm4]; norm_num) hqc
  · intro c hc
    rw [List.take_zero] at hc
    exact absurd hc (List.not_mem_nil c)

end Glance
